import Mathlib

/-!
Verification of the deposit-listener repository (TypeScript).

The development shallowly embeds the relevant program parts:

* JavaScript strings are modelled as `List Char`, JavaScript numbers that stay
  non-negative as `Nat` (with an explicit `% 2 ^ 32` wherever the program pipes
  a value through a 32-bit JavaScript bitwise operator and the truncation could
  matter), and thrown exceptions as `Except String`.
* `src/address.ts` (current revision, the one exercised by the test-suite):
  `convertBits`, `pubKeyToAddress`, `ethAddressToBech32`, `isEthAddress`,
  together with faithful models of the library functions they call
  (the `bech32` npm package, `sha256`, `ripemd160`, Node `Buffer` codecs).
* `src/monitor.ts` (current revision): `parseTransactionDetails`,
  `extractSender`, `determineDepositType`, `resolveEvmAddress` and its three
  RPC helpers, `notifyCallbacks`, and the state transition performed by each
  tick of `startRestPolling`.
-/

/-! ## Generic numeric helpers (bit-level toolkit) -/

/-- Truncation to the low 32 bits, the effect of JavaScript ToInt32/ToUint32 on
the bit pattern. -/
def jsMask32 (x : Nat) : Nat := x % 4294967296

theorem xor_mod_two_pow (x y m : Nat) :
    (x ^^^ y) % 2 ^ m = x % 2 ^ m ^^^ y % 2 ^ m := by
  apply Nat.eq_of_testBit_eq
  intro i
  simp only [Nat.testBit_mod_two_pow, Nat.testBit_xor]
  by_cases h : i < m <;> simp [h]

theorem xor_shiftRight_of_lt {d : Nat} (x n : Nat) (hd : d < 2 ^ n) :
    (x ^^^ d) >>> n = x >>> n := by
  apply Nat.eq_of_testBit_eq
  intro i
  have hdi : d.testBit (n + i) = false :=
    Nat.testBit_eq_false_of_lt (lt_of_lt_of_le hd (Nat.pow_le_pow_right (by norm_num) (by omega)))
  simp [Nat.testBit_shiftRight, Nat.testBit_xor, hdi]

theorem xor_shiftLeft_distrib (x y n : Nat) :
    (x ^^^ y) <<< n = x <<< n ^^^ y <<< n := by
  apply Nat.eq_of_testBit_eq
  intro i
  simp only [Nat.testBit_shiftLeft, Nat.testBit_xor]
  by_cases h : i ≥ n <;> simp [h]

theorem xor_two_mul (x y : Nat) : 2 * x ^^^ 2 * y = 2 * (x ^^^ y) := by
  have h := Nat.xor_bit false x false y
  simpa [Nat.bit_false] using h

theorem xor_two_mul_add_one (x y : Nat) : 2 * x ^^^ (2 * y + 1) = 2 * (x ^^^ y) + 1 := by
  have h := Nat.xor_bit false x true y
  simpa [Nat.bit_false, Nat.bit_true] using h

/-- Exclusive or of values with disjoint bit ranges is addition. -/
theorem xor_mul_pow_add (a : Nat) : ∀ (m b : Nat), b < 2 ^ m →
    (a * 2 ^ m) ^^^ b = a * 2 ^ m + b := by
  intro m
  induction m generalizing a with
  | zero =>
    intro b hb
    interval_cases b
    simp
  | succ m ih =>
    intro b hb
    have hsplit : b = 2 * (b / 2) + b % 2 := by omega
    have hb2 : b / 2 < 2 ^ m := by
      have : b < 2 * 2 ^ m := by
        simpa [Nat.pow_succ, Nat.mul_comm] using hb
      omega
    have hmul : a * 2 ^ (m + 1) = 2 * (a * 2 ^ m) := by ring
    have h2 : b % 2 = 0 ∨ b % 2 = 1 := by omega
    rcases h2 with h2 | h2
    · rw [hmul, hsplit, h2, Nat.add_zero, xor_two_mul, ih a (b / 2) hb2]
      ring
    · rw [hmul, hsplit, h2, xor_two_mul_add_one, ih a (b / 2) hb2]
      ring

theorem lor_two_mul (x y : Nat) : 2 * x ||| 2 * y = 2 * (x ||| y) := by
  have h := Nat.lor_bit false x false y
  simpa [Nat.bit_false] using h

theorem lor_two_mul_add_one (x y : Nat) : 2 * x ||| (2 * y + 1) = 2 * (x ||| y) + 1 := by
  have h := Nat.lor_bit false x true y
  simpa [Nat.bit_false, Nat.bit_true] using h

/-- Bitwise or of values with disjoint bit ranges is addition. -/
theorem lor_mul_pow_add (a : Nat) : ∀ (m b : Nat), b < 2 ^ m →
    (a * 2 ^ m) ||| b = a * 2 ^ m + b := by
  intro m
  induction m generalizing a with
  | zero =>
    intro b hb
    interval_cases b
    simp
  | succ m ih =>
    intro b hb
    have hsplit : b = 2 * (b / 2) + b % 2 := by omega
    have hb2 : b / 2 < 2 ^ m := by
      have : b < 2 * 2 ^ m := by
        simpa [Nat.pow_succ, Nat.mul_comm] using hb
      omega
    have hmul : a * 2 ^ (m + 1) = 2 * (a * 2 ^ m) := by ring
    have h2 : b % 2 = 0 ∨ b % 2 = 1 := by omega
    rcases h2 with h2 | h2
    · rw [hmul, hsplit, h2, Nat.add_zero, lor_two_mul, ih a (b / 2) hb2]
      ring
    · rw [hmul, hsplit, h2, lor_two_mul_add_one, ih a (b / 2) hb2]
      ring

theorem and_pow_sub_one (x t : Nat) : x &&& (1 <<< t) - 1 = x % 2 ^ t := by
  have h1 : (1 : Nat) <<< t = 2 ^ t := by
    rw [Nat.shiftLeft_eq, Nat.one_mul]
  rw [h1, Nat.and_pow_two_sub_one_eq_mod]

/-- Splitting the low `m + n` bits of a number at position `m`. -/
theorem window_split (a m n : Nat) :
    a % (2 ^ m * 2 ^ n) = (a / 2 ^ m % 2 ^ n) * 2 ^ m + a % 2 ^ m := by
  rw [Nat.mod_mul]
  ring

/-! ## `AddressUtils.convertBits` (src/address.ts)

The source is an imperative fold over the input with mutable state
`(acc, bits, result)` and an inner `while (bits >= toBits)` loop.  JavaScript
performs `<<`, `|`, `>>`, `&` on 32-bit integers, so the accumulator is
truncated with `jsMask32` at the only point where it can exceed 32 bits; every
later read extracts at most the low 13 bits of the accumulator, where the
truncated and the untruncated values agree. -/

/-- Body of the inner `while (bits >= toBits) { bits -= toBits; result.push((acc >> bits) & maxv); }`
loop, with a structural fuel argument so that the definition evaluates inside
the kernel; every iteration lowers `bits` by at least one, so `bits` itself is
always enough fuel.  The `0 < toBits` conjunct only excludes the parameter
choice on which the JavaScript loop would not terminate; both call sites use
`toBits` of 5 or 8. -/
def pushLoopAux (toBits maxv acc : Nat) : Nat → Nat → List Nat → Nat × List Nat
  | 0, bits, out => (bits, out)
  | fuel + 1, bits, out =>
    if 0 < toBits ∧ toBits ≤ bits then
      pushLoopAux toBits maxv acc fuel (bits - toBits)
        (out ++ [(acc >>> (bits - toBits)) &&& maxv])
    else (bits, out)

/-- The inner push loop of `convertBits`. -/
def pushLoop (toBits maxv acc bits : Nat) (out : List Nat) : Nat × List Nat :=
  pushLoopAux toBits maxv acc bits bits out

/-- One iteration of `for (const value of data)` in `convertBits`. -/
def convertBitsStep (fromBits toBits maxv : Nat) (st : Nat × Nat × List Nat)
    (value : Nat) : Nat × Nat × List Nat :=
  let acc := jsMask32 ((st.1 <<< fromBits) ||| value)
  let r := pushLoop toBits maxv acc (st.2.1 + fromBits) st.2.2
  (acc, r.1, r.2)

/-- `AddressUtils.convertBits` from src/address.ts.  A thrown
`Error('Unable to convert bits')` is modelled as `Except.error`. -/
def convertBits (data : List Nat) (fromBits toBits : Nat) (pad : Bool) :
    Except String (List Nat) :=
  let maxv := (1 <<< toBits) - 1
  let st := data.foldl (convertBitsStep fromBits toBits maxv) (0, 0, [])
  if pad then
    if 0 < st.2.1 then .ok (st.2.2 ++ [(st.1 <<< (toBits - st.2.1)) &&& maxv])
    else .ok st.2.2
  else if fromBits ≤ st.2.1 ∨ (st.1 <<< (toBits - st.2.1)) &&& maxv ≠ 0 then
    .error "Unable to convert bits"
  else .ok st.2.2

/-- Big-endian value of a digit string in the given base. -/
def beVal (base : Nat) (l : List Nat) : Nat := l.foldl (fun a g => a * base + g) 0

theorem beVal_append_singleton (base : Nat) (l : List Nat) (g : Nat) :
    beVal base (l ++ [g]) = beVal base l * base + g := by
  simp [beVal]

theorem masked_lt (x t : Nat) : x &&& (1 <<< t) - 1 < 2 ^ t := by
  rw [and_pow_sub_one]
  exact Nat.mod_lt _ (Nat.pos_pow_of_pos t (by norm_num))

theorem pushLoopAux_spec (t : Nat) (ht : 0 < t) (acc : Nat) :
    ∀ (fuel bits : Nat) (out : List Nat), bits ≤ fuel →
      (pushLoopAux t ((1 <<< t) - 1) acc fuel bits out).1 < t ∧
      t * (pushLoopAux t ((1 <<< t) - 1) acc fuel bits out).2.length +
          (pushLoopAux t ((1 <<< t) - 1) acc fuel bits out).1 = t * out.length + bits ∧
      (∀ g ∈ (pushLoopAux t ((1 <<< t) - 1) acc fuel bits out).2, g ∈ out ∨ g < 2 ^ t) ∧
      beVal (2 ^ t) (pushLoopAux t ((1 <<< t) - 1) acc fuel bits out).2 *
            2 ^ (pushLoopAux t ((1 <<< t) - 1) acc fuel bits out).1 +
          acc % 2 ^ (pushLoopAux t ((1 <<< t) - 1) acc fuel bits out).1 =
        beVal (2 ^ t) out * 2 ^ bits + acc % 2 ^ bits := by
  intro fuel
  induction fuel with
  | zero =>
    intro bits out hle
    have hb : bits = 0 := by omega
    subst hb
    exact ⟨ht, by simp [pushLoopAux], by intro g hg; exact Or.inl hg, rfl⟩
  | succ fuel ih =>
    intro bits out hle
    have hunf : pushLoopAux t ((1 <<< t) - 1) acc (fuel + 1) bits out =
        (if 0 < t ∧ t ≤ bits then
          pushLoopAux t ((1 <<< t) - 1) acc fuel (bits - t)
            (out ++ [(acc >>> (bits - t)) &&& ((1 <<< t) - 1)])
        else (bits, out)) := rfl
    rw [hunf]
    by_cases h : 0 < t ∧ t ≤ bits
    · rw [if_pos h]
      obtain ⟨htpos, htle⟩ := h
      obtain ⟨ih1, ih2, ih3, ih4⟩ := ih (bits - t)
        (out ++ [(acc >>> (bits - t)) &&& ((1 <<< t) - 1)]) (by omega)
      refine ⟨ih1, by
        have hlen : (out ++ [(acc >>> (bits - t)) &&& ((1 <<< t) - 1)]).length =
            out.length + 1 := by simp
        rw [hlen] at ih2
        have hdist : t * (out.length + 1) = t * out.length + t := by
          rw [Nat.mul_add, Nat.mul_one]
        have hbt : bits - t + t = bits := by omega
        omega, ?_, ?_⟩
      · intro g hg
        rcases ih3 g hg with hg' | hg'
        · rcases List.mem_append.mp hg' with h' | h'
          · exact Or.inl h'
          · refine Or.inr ?_
            rcases List.mem_singleton.mp h' with rfl
            exact masked_lt _ _
        · exact Or.inr hg'
      · rw [ih4, beVal_append_singleton]
        have hsplit := window_split acc (bits - t) t
        have hmask : acc >>> (bits - t) &&& (1 <<< t) - 1 = acc / 2 ^ (bits - t) % 2 ^ t := by
          rw [and_pow_sub_one, Nat.shiftRight_eq_div_pow]
        have hpow : (2 : Nat) ^ (bits - t) * 2 ^ t = 2 ^ bits := by
          rw [← pow_add]
          congr 1
          omega
        rw [hmask]
        rw [hpow] at hsplit
        nlinarith [hsplit]
    · rw [if_neg h]
      exact ⟨by omega, by simp, fun g hg => Or.inl hg, rfl⟩

theorem pushLoop_spec (t : Nat) (ht : 0 < t) (acc : Nat) :
    ∀ (bits : Nat) (out : List Nat),
      (pushLoop t ((1 <<< t) - 1) acc bits out).1 < t ∧
      t * (pushLoop t ((1 <<< t) - 1) acc bits out).2.length +
          (pushLoop t ((1 <<< t) - 1) acc bits out).1 = t * out.length + bits ∧
      (∀ g ∈ (pushLoop t ((1 <<< t) - 1) acc bits out).2, g ∈ out ∨ g < 2 ^ t) ∧
      beVal (2 ^ t) (pushLoop t ((1 <<< t) - 1) acc bits out).2 *
            2 ^ (pushLoop t ((1 <<< t) - 1) acc bits out).1 +
          acc % 2 ^ (pushLoop t ((1 <<< t) - 1) acc bits out).1 =
        beVal (2 ^ t) out * 2 ^ bits + acc % 2 ^ bits := by
  intro bits out
  exact pushLoopAux_spec t ht acc bits bits out (Nat.le_refl bits)

theorem fold_count (f t : Nat) (ht : 0 < t) :
    ∀ (data : List Nat) (acc bits : Nat) (out : List Nat), bits < t →
      (data.foldl (convertBitsStep f t ((1 <<< t) - 1)) (acc, bits, out)).2.1 < t ∧
      t * (data.foldl (convertBitsStep f t ((1 <<< t) - 1)) (acc, bits, out)).2.2.length +
          (data.foldl (convertBitsStep f t ((1 <<< t) - 1)) (acc, bits, out)).2.1 =
        t * out.length + bits + f * data.length ∧
      (∀ g ∈ (data.foldl (convertBitsStep f t ((1 <<< t) - 1)) (acc, bits, out)).2.2,
        g ∈ out ∨ g < 2 ^ t) := by
  intro data
  induction data with
  | nil =>
    intro acc bits out hb
    exact ⟨hb, by simp, fun g hg => Or.inl hg⟩
  | cons d rest ih =>
    intro acc bits out hb
    simp only [List.foldl_cons]
    have hstep : convertBitsStep f t ((1 <<< t) - 1) (acc, bits, out) d =
        (jsMask32 ((acc <<< f) ||| d),
         (pushLoop t ((1 <<< t) - 1) (jsMask32 ((acc <<< f) ||| d)) (bits + f) out).1,
         (pushLoop t ((1 <<< t) - 1) (jsMask32 ((acc <<< f) ||| d)) (bits + f) out).2) := rfl
    rw [hstep]
    set acc2 := jsMask32 ((acc <<< f) ||| d) with hacc2
    have hps := pushLoop_spec t ht acc2 (bits + f) out
    obtain ⟨hp1, hp2, hp3, _⟩ := hps
    have := ih acc2 (pushLoop t ((1 <<< t) - 1) acc2 (bits + f) out).1
      (pushLoop t ((1 <<< t) - 1) acc2 (bits + f) out).2 hp1
    obtain ⟨h1, h2, h3⟩ := this
    refine ⟨h1, ?_, ?_⟩
    · rw [h2]
      simp only [List.length_cons, Nat.mul_add, Nat.mul_one]
      omega
    · intro g hg
      rcases h3 g hg with hg' | hg'
      · exact hp3 g hg'
      · exact Or.inr hg'

theorem fold_val (f t : Nat) (hf : 0 < f) (ht : 0 < t) (hft : f + t ≤ 33) :
    ∀ (data : List Nat), (∀ d ∈ data, d < 2 ^ f) →
    ∀ (acc bits : Nat) (out : List Nat), bits < t →
      beVal (2 ^ t) (data.foldl (convertBitsStep f t ((1 <<< t) - 1)) (acc, bits, out)).2.2 *
            2 ^ (data.foldl (convertBitsStep f t ((1 <<< t) - 1)) (acc, bits, out)).2.1 +
          (data.foldl (convertBitsStep f t ((1 <<< t) - 1)) (acc, bits, out)).1 %
            2 ^ (data.foldl (convertBitsStep f t ((1 <<< t) - 1)) (acc, bits, out)).2.1 =
        data.foldl (fun a d => a * 2 ^ f + d)
          (beVal (2 ^ t) out * 2 ^ bits + acc % 2 ^ bits) := by
  intro data
  induction data with
  | nil =>
    intro _ acc bits out _
    rfl
  | cons d rest ih =>
    intro hd acc bits out hb
    have hdlt : d < 2 ^ f := hd d (List.mem_cons_self d rest)
    have hdrest : ∀ x ∈ rest, x < 2 ^ f := fun x hx => hd x (List.mem_cons_of_mem d hx)
    simp only [List.foldl_cons]
    have hstep : convertBitsStep f t ((1 <<< t) - 1) (acc, bits, out) d =
        (jsMask32 ((acc <<< f) ||| d),
         (pushLoop t ((1 <<< t) - 1) (jsMask32 ((acc <<< f) ||| d)) (bits + f) out).1,
         (pushLoop t ((1 <<< t) - 1) (jsMask32 ((acc <<< f) ||| d)) (bits + f) out).2) := rfl
    rw [hstep]
    set acc2 := jsMask32 ((acc <<< f) ||| d) with hacc2
    have hps := pushLoop_spec t ht acc2 (bits + f) out
    obtain ⟨hp1, _, _, hp4⟩ := hps
    have hih := ih hdrest acc2 (pushLoop t ((1 <<< t) - 1) acc2 (bits + f) out).1
      (pushLoop t ((1 <<< t) - 1) acc2 (bits + f) out).2 hp1
    rw [hih, hp4]
    congr 1
    -- the value of the low `bits + f` bits of the new accumulator
    have hor : (acc <<< f) ||| d = acc * 2 ^ f + d := by
      rw [Nat.shiftLeft_eq]
      exact lor_mul_pow_add acc f d hdlt
    have hdvd : (2 : Nat) ^ (bits + f) ∣ 2 ^ 32 := pow_dvd_pow 2 (by omega)
    have hmask : acc2 % 2 ^ (bits + f) = (acc * 2 ^ f + d) % 2 ^ (bits + f) := by
      rw [hacc2, hor, jsMask32]
      have h32 : (4294967296 : Nat) = 2 ^ 32 := by norm_num
      rw [h32, Nat.mod_mod_of_dvd _ hdvd]
    have hwin : (acc * 2 ^ f + d) % 2 ^ (bits + f) = (acc % 2 ^ bits) * 2 ^ f + d := by
      have hpw : (2 : Nat) ^ (bits + f) = 2 ^ f * 2 ^ bits := by
        rw [← pow_add]
        congr 1
        omega
      rw [hpw, window_split]
      have hq : (acc * 2 ^ f + d) / 2 ^ f = acc := by
        rw [Nat.mul_comm acc (2 ^ f), Nat.mul_add_div (Nat.pos_pow_of_pos f (by norm_num)),
          Nat.div_eq_of_lt hdlt, Nat.add_zero]
      have hr : (acc * 2 ^ f + d) % 2 ^ f = d := by
        rw [Nat.mul_comm acc (2 ^ f), Nat.mul_add_mod, Nat.mod_eq_of_lt hdlt]
      rw [hq, hr]
    rw [hmask, hwin]
    ring

theorem beVal_foldl_seed (base : Nat) :
    ∀ (l : List Nat) (s : Nat),
      l.foldl (fun a g => a * base + g) s = s * base ^ l.length + beVal base l := by
  intro l
  induction l with
  | nil => intro s; simp [beVal]
  | cons g l ih =>
    intro s
    have hg : beVal base (g :: l) = g * base ^ l.length + beVal base l := by
      show List.foldl (fun a g => a * base + g) (0 * base + g) l = _
      rw [ih (0 * base + g)]
      ring_nf
    simp only [List.foldl_cons, List.length_cons]
    rw [ih (s * base + g), hg]
    ring

theorem beVal_lt (base : Nat) (hb : 0 < base) :
    ∀ (l : List Nat), (∀ x ∈ l, x < base) → beVal base l < base ^ l.length := by
  intro l
  induction l with
  | nil => intro _; simp [beVal]
  | cons g l ih =>
    intro h
    have hg : g < base := h g (List.mem_cons_self g l)
    have hl := ih (fun x hx => h x (List.mem_cons_of_mem g hx))
    have hcons : beVal base (g :: l) = g * base ^ l.length + beVal base l := by
      show List.foldl (fun a g => a * base + g) (0 * base + g) l = _
      rw [beVal_foldl_seed base l (0 * base + g)]
      ring_nf
    rw [hcons]
    simp only [List.length_cons, pow_succ]
    calc g * base ^ l.length + beVal base l
        < g * base ^ l.length + base ^ l.length := by omega
      _ = (g + 1) * base ^ l.length := by ring
      _ ≤ base * base ^ l.length := by
          exact Nat.mul_le_mul_right _ (by omega)
      _ = base ^ l.length * base := by ring

theorem beVal_inj (base : Nat) :
    ∀ (l1 l2 : List Nat), l1.length = l2.length → (∀ x ∈ l1, x < base) →
      (∀ x ∈ l2, x < base) → beVal base l1 = beVal base l2 → l1 = l2 := by
  intro l1
  induction l1 with
  | nil =>
    intro l2 hlen _ _ _
    cases l2 with
    | nil => rfl
    | cons a l => simp at hlen
  | cons a1 t1 ih =>
    intro l2 hlen h1 h2 hv
    cases l2 with
    | nil => simp at hlen
    | cons a2 t2 =>
      have hlen' : t1.length = t2.length := by simpa using hlen
      have ha1 : a1 < base := h1 a1 (List.mem_cons_self a1 t1)
      have ha2 : a2 < base := h2 a2 (List.mem_cons_self a2 t2)
      have hb : 0 < base := by omega
      have hc1 : beVal base (a1 :: t1) = a1 * base ^ t1.length + beVal base t1 := by
        show List.foldl (fun a g => a * base + g) (0 * base + a1) t1 = _
        rw [beVal_foldl_seed base t1 (0 * base + a1)]
        ring_nf
      have hc2 : beVal base (a2 :: t2) = a2 * base ^ t2.length + beVal base t2 := by
        show List.foldl (fun a g => a * base + g) (0 * base + a2) t2 = _
        rw [beVal_foldl_seed base t2 (0 * base + a2)]
        ring_nf
      have hv1 := beVal_lt base hb t1 (fun x hx => h1 x (List.mem_cons_of_mem a1 hx))
      have hv2 := beVal_lt base hb t2 (fun x hx => h2 x (List.mem_cons_of_mem a2 hx))
      rw [hc1, hc2, ← hlen'] at hv
      set P := base ^ t1.length with hP
      have hPpos : 0 < P := Nat.pos_pow_of_pos _ hb
      have heq1 : a1 = a2 := by
        have d1 : (a1 * P + beVal base t1) / P = a1 := by
          rw [Nat.mul_comm a1 P, Nat.mul_add_div hPpos, Nat.div_eq_of_lt hv1, Nat.add_zero]
        have hv2' : beVal base t2 < P := by
          rw [hP, hlen']
          exact hv2
        have d2 : (a2 * P + beVal base t2) / P = a2 := by
          rw [Nat.mul_comm a2 P, Nat.mul_add_div hPpos, Nat.div_eq_of_lt hv2', Nat.add_zero]
        rw [← d1, ← d2, hv]
      have heq2 : beVal base t1 = beVal base t2 := by
        rw [heq1] at hv
        omega
      rw [heq1, ih t2 hlen' (fun x hx => h1 x (List.mem_cons_of_mem a1 hx))
        (fun x hx => h2 x (List.mem_cons_of_mem a2 hx)) heq2]

theorem convertBits_8_5_val (bs : List Nat) (hb : ∀ b ∈ bs, b < 256)
    (h5 : 8 * bs.length % 5 = 0) :
    ∃ ws, convertBits bs 8 5 true = .ok ws ∧ ws.length = 8 * bs.length / 5 ∧
      (∀ w ∈ ws, w < 32) ∧ beVal 32 ws = beVal 256 bs := by
  have hcount := fold_count 8 5 (by norm_num) bs 0 0 [] (by norm_num)
  have hval := fold_val 8 5 (by norm_num) (by norm_num) (by norm_num) bs
    (by intro d hd; have := hb d hd; norm_num; omega) 0 0 [] (by norm_num)
  set st := bs.foldl (convertBitsStep 8 5 ((1 <<< 5) - 1)) (0, 0, []) with hst
  obtain ⟨hc1, hc2, hc3⟩ := hcount
  simp only [List.length_nil, Nat.mul_zero, Nat.zero_add] at hc2
  have hbits0 : st.2.1 = 0 := by omega
  refine ⟨st.2.2, ?_, by omega, ?_, ?_⟩
  · show convertBits bs 8 5 true = .ok st.2.2
    have hdef : convertBits bs 8 5 true =
        (if 0 < st.2.1 then Except.ok (st.2.2 ++ [st.1 <<< (5 - st.2.1) &&& ((1 <<< 5) - 1)])
         else Except.ok st.2.2) := rfl
    rw [hdef, if_neg (by omega)]
  · intro w hw
    rcases hc3 w hw with h | h
    · simp at h
    · norm_num at h
      exact h
  · rw [hbits0] at hval
    simp only [beVal, List.foldl_nil, pow_zero, Nat.mul_one, Nat.mod_one, Nat.add_zero,
      Nat.mul_zero, Nat.zero_mul, Nat.zero_add] at hval
    show beVal 32 st.2.2 = beVal 256 bs
    have h32 : (2 : Nat) ^ 5 = 32 := by norm_num
    have h256 : (2 : Nat) ^ 8 = 256 := by norm_num
    rw [← h32, ← h256]
    rw [h32, h256] at hval
    rw [h32]
    exact hval

theorem convertBits_5_8_val (ws : List Nat) (hw : ∀ w ∈ ws, w < 32)
    (h8 : 5 * ws.length % 8 = 0) :
    ∃ out, convertBits ws 5 8 false = .ok out ∧ out.length = 5 * ws.length / 8 ∧
      (∀ b ∈ out, b < 256) ∧ beVal 256 out = beVal 32 ws := by
  have hcount := fold_count 5 8 (by norm_num) ws 0 0 [] (by norm_num)
  have hval := fold_val 5 8 (by norm_num) (by norm_num) (by norm_num) ws
    (by intro d hd; have := hw d hd; norm_num; omega) 0 0 [] (by norm_num)
  set st := ws.foldl (convertBitsStep 5 8 ((1 <<< 8) - 1)) (0, 0, []) with hst
  obtain ⟨hc1, hc2, hc3⟩ := hcount
  simp only [List.length_nil, Nat.mul_zero, Nat.zero_add] at hc2
  have hbits0 : st.2.1 = 0 := by omega
  have hleft : st.1 <<< (8 - st.2.1) &&& ((1 <<< 8) - 1) = 0 := by
    rw [hbits0, and_pow_sub_one, Nat.shiftLeft_eq]
    simp [Nat.mul_mod_left]
  refine ⟨st.2.2, ?_, by omega, ?_, ?_⟩
  · show convertBits ws 5 8 false = .ok st.2.2
    have hdef : convertBits ws 5 8 false =
        (if 5 ≤ st.2.1 ∨ st.1 <<< (8 - st.2.1) &&& ((1 <<< 8) - 1) ≠ 0 then
           (Except.error "Unable to convert bits" : Except String (List Nat))
         else Except.ok st.2.2) := rfl
    rw [hdef, if_neg]
    push_neg
    exact ⟨by omega, by rw [hleft]⟩
  · intro b hbmem
    rcases hc3 b hbmem with h | h
    · simp at h
    · norm_num at h
      exact h
  · rw [hbits0] at hval
    simp only [beVal, List.foldl_nil, pow_zero, Nat.mul_one, Nat.mod_one, Nat.add_zero,
      Nat.mul_zero, Nat.zero_mul, Nat.zero_add] at hval
    show beVal 256 st.2.2 = beVal 32 ws
    simp only [beVal]
    exact hval

/-- Round trip through the two `convertBits` calls of the derive/decode pair,
for 20-byte inputs (160 bits regroups exactly, so the padding branch adds
nothing and the unpadded decode direction leaves no residue). -/
theorem convertBits_roundtrip_20 (bs : List Nat) (h20 : bs.length = 20)
    (hb : ∀ b ∈ bs, b < 256) :
    ∃ ws, convertBits bs 8 5 true = .ok ws ∧ ws.length = 32 ∧ (∀ w ∈ ws, w < 32) ∧
      convertBits ws 5 8 false = .ok bs := by
  obtain ⟨ws, henc, hlen, hwlt, hval⟩ := convertBits_8_5_val bs hb (by rw [h20])
  rw [h20] at hlen
  norm_num at hlen
  obtain ⟨out, hdec, holen, hblt, hoval⟩ := convertBits_5_8_val ws hwlt (by rw [hlen])
  rw [hlen] at holen
  norm_num at holen
  have heq : out = bs := by
    apply beVal_inj 256 out bs (by omega) hblt hb
    rw [hoval, hval]
  refine ⟨ws, henc, hlen, hwlt, ?_⟩
  rw [hdec, heq]

/-- C10: `convertBits` with `fromBits = 8`, `toBits = 5`, `pad = true` is total:
it never throws, and for an input of `n` entries it returns exactly
`ceil (8 * n / 5)` groups, each in the range `0 .. 31`, so the padding path
used by `ethAddressToBech32` and `pubKeyToAddress` cannot fail during
regrouping. -/
theorem convertBits_8_5_pad_total (data : List Nat) :
    ∃ out, convertBits data 8 5 true = .ok out ∧
      out.length = (8 * data.length + 4) / 5 ∧ ∀ g ∈ out, g < 32 := by
  have hcount := fold_count 8 5 (by norm_num) data 0 0 [] (by norm_num)
  set st := data.foldl (convertBitsStep 8 5 ((1 <<< 5) - 1)) (0, 0, []) with hst
  obtain ⟨hc1, hc2, hc3⟩ := hcount
  simp only [List.length_nil, Nat.mul_zero, Nat.zero_add] at hc2
  have hdef : convertBits data 8 5 true =
      (if 0 < st.2.1 then Except.ok (st.2.2 ++ [st.1 <<< (5 - st.2.1) &&& ((1 <<< 5) - 1)])
       else Except.ok st.2.2) := rfl
  have hmem : ∀ g ∈ st.2.2, g < 32 := by
    intro g hg
    rcases hc3 g hg with h | h
    · simp at h
    · norm_num at h
      exact h
  by_cases hpos : 0 < st.2.1
  · refine ⟨st.2.2 ++ [st.1 <<< (5 - st.2.1) &&& ((1 <<< 5) - 1)], ?_, ?_, ?_⟩
    · rw [hdef, if_pos hpos]
    · simp only [List.length_append, List.length_singleton]
      omega
    · intro g hg
      rcases List.mem_append.mp hg with h | h
      · exact hmem g h
      · rcases List.mem_singleton.mp h with rfl
        have := masked_lt (st.1 <<< (5 - st.2.1)) 5
        norm_num at this
        exact this
  · refine ⟨st.2.2, ?_, ?_, hmem⟩
    · rw [hdef, if_neg hpos]
    · omega

/-! ## The `bech32` npm package (library called by src/address.ts)

`bech32.encode` and `bech32.decode` with `ENCODING_CONST = 1`.  JavaScript
strings are `List Char`; `polymodStep` works on values below `2 ^ 30`, so the
32-bit JavaScript arithmetic never truncates and plain `Nat` is faithful. -/

/-- ASCII lowercasing of one character, as JavaScript `toLowerCase` acts on the
code points the program feeds it. -/
def jsToLower (c : Char) : Char :=
  if 65 ≤ c.toNat ∧ c.toNat ≤ 90 then Char.ofNat (c.toNat + 32) else c

/-- ASCII uppercasing of one character. -/
def jsToUpper (c : Char) : Char :=
  if 97 ≤ c.toNat ∧ c.toNat ≤ 122 then Char.ofNat (c.toNat - 32) else c

/-- `String.prototype.lastIndexOf` restricted to a single character needle;
`none` models the JavaScript result `-1`. -/
def lastIndexOf (l : List Char) (c : Char) : Option Nat :=
  match l with
  | [] => none
  | a :: t =>
    match lastIndexOf t c with
    | some i => some (i + 1)
    | none => if a = c then some 0 else none

def ALPHABET : List Char :=
  ['q', 'p', 'z', 'r', 'y', '9', 'x', '8', 'g', 'f', '2', 't', 'v', 'd', 'w', '0',
   's', '3', 'j', 'n', '5', '4', 'k', 'h', 'c', 'e', '6', 'm', 'u', 'a', '7', 'l']

/-- `ALPHABET.charAt(v)`; all call sites have `v < 32`. -/
def alphaChar (v : Nat) : Char := ALPHABET.getD v ' '

/-- `ALPHABET_MAP[c]`, `none` for a character outside the alphabet. -/
def alphaVal (c : Char) : Option Nat := ALPHABET.findIdx? (· = c)

def polymodStep (pre : Nat) : Nat :=
  let b := pre >>> 25
  ((pre &&& 0x1ffffff) <<< 5) ^^^
    (if b &&& 1 = 1 then 0x3b6a57b2 else 0) ^^^
    (if (b >>> 1) &&& 1 = 1 then 0x26508e6d else 0) ^^^
    (if (b >>> 2) &&& 1 = 1 then 0x1ea119fa else 0) ^^^
    (if (b >>> 3) &&& 1 = 1 then 0x3d4233dd else 0) ^^^
    (if (b >>> 4) &&& 1 = 1 then 0x2a1462b3 else 0)

/-- First loop of `prefixChk`: validates character codes and mixes in the high
bits of each code. -/
def prefixChkHigh : List Char → Nat → Except String Nat
  | [], chk => .ok chk
  | c :: rest, chk =>
    if c.toNat < 33 ∨ 126 < c.toNat then .error "Invalid prefix"
    else prefixChkHigh rest (polymodStep chk ^^^ (c.toNat >>> 5))

/-- `prefixChk` from the bech32 package. -/
def prefixChk (p : List Char) : Except String Nat :=
  match prefixChkHigh p 1 with
  | .error e => .error e
  | .ok chk1 =>
    .ok (p.foldl (fun chk c => polymodStep chk ^^^ (c.toNat &&& 0x1f)) (polymodStep chk1))

/-- Data loop of `bech32.encode`: checks each word fits in 5 bits, extends the
checksum state and appends the word character. -/
def encodeWordsLoop : List Nat → Nat → List Char → Except String (Nat × List Char)
  | [], chk, res => .ok (chk, res)
  | x :: rest, chk, res =>
    if x >>> 5 ≠ 0 then .error "Non 5-bit word"
    else encodeWordsLoop rest (polymodStep chk ^^^ x) (res ++ [alphaChar x])

/-- The six trailing `chk = polymodStep(chk)` iterations of `bech32.encode`. -/
def sixSteps (chk : Nat) : Nat :=
  polymodStep (polymodStep (polymodStep (polymodStep (polymodStep (polymodStep chk)))))

/-- `bech32.encode(prefix, words, LIMIT)` with `ENCODING_CONST = 1`. -/
def bech32Encode (hrp : List Char) (words : List Nat) (limit : Nat) :
    Except String (List Char) :=
  if limit < hrp.length + 7 + words.length then .error "Exceeds length limit"
  else
    let hrpL := hrp.map jsToLower
    match prefixChk hrpL with
    | .error e => .error e
    | .ok chk0 =>
      match encodeWordsLoop words chk0 [] with
      | .error e => .error e
      | .ok (chk1, dataChars) =>
        let chkF := sixSteps chk1 ^^^ 1
        let checksumChars :=
          (List.range 6).map (fun i => alphaChar ((chkF >>> ((5 - i) * 5)) &&& 0x1f))
        .ok (hrpL ++ '1' :: (dataChars ++ checksumChars))

/-- Word loop of `__decode`: maps characters back through the alphabet, extends
the checksum and collects every word except the six checksum positions. -/
def decodeWordsLoop : List Char → Nat → Nat → Nat → List Nat →
    Except String (Nat × List Nat)
  | [], _, _, chk, ws => .ok (chk, ws)
  | c :: rest, i, total, chk, ws =>
    match alphaVal c with
    | none => .error "Unknown character"
    | some v =>
      if i + 6 ≥ total then decodeWordsLoop rest (i + 1) total (polymodStep chk ^^^ v) ws
      else decodeWordsLoop rest (i + 1) total (polymodStep chk ^^^ v) (ws ++ [v])

/-- `bech32.decode(str, LIMIT)` (the `__decode` body; a string return value is
an error). -/
def bech32Decode (str : List Char) (limit : Nat) :
    Except String (List Char × List Nat) :=
  if str.length < 8 then .error "too short"
  else if limit < str.length then .error "Exceeds length limit"
  else
    let lowered := str.map jsToLower
    let uppered := str.map jsToUpper
    if str ≠ lowered ∧ str ≠ uppered then .error "Mixed-case string"
    else
      match lastIndexOf lowered '1' with
      | none => .error "No separator"
      | some split =>
        if split = 0 then .error "Missing prefix"
        else
          let hrp := lowered.take split
          let wordChars := lowered.drop (split + 1)
          if wordChars.length < 6 then .error "Data too short"
          else
            match prefixChk hrp with
            | .error e => .error e
            | .ok chk0 =>
              match decodeWordsLoop wordChars 0 wordChars.length chk0 [] with
              | .error e => .error e
              | .ok (chkF, ws) =>
                if chkF ≠ 1 then .error "Invalid checksum"
                else .ok (hrp, ws)

theorem and31_eq_mod (x : Nat) : x &&& 0x1f = x % 32 := by
  have h : (0x1f : Nat) = (1 <<< 5) - 1 := by decide
  rw [h, and_pow_sub_one]
  norm_num

theorem and25_eq_mod (x : Nat) : x &&& 0x1ffffff = x % 2 ^ 25 := by
  have h : (0x1ffffff : Nat) = (1 <<< 25) - 1 := by decide
  rw [h, and_pow_sub_one]

theorem xor_and_distrib (x y m : Nat) : (x ^^^ y) &&& m = (x &&& m) ^^^ (y &&& m) := by
  apply Nat.eq_of_testBit_eq
  intro i
  simp only [Nat.testBit_land, Nat.testBit_xor]
  cases x.testBit i <;> cases y.testBit i <;> cases m.testBit i <;> rfl

theorem polymodStep_lt (pre : Nat) : polymodStep pre < 2 ^ 30 := by
  unfold polymodStep
  have h1 : (pre &&& 0x1ffffff) <<< 5 < 2 ^ 30 := by
    have := and25_eq_mod pre
    have hlt : pre &&& 0x1ffffff < 2 ^ 25 := by
      rw [this]
      exact Nat.mod_lt _ (by norm_num)
    have := Nat.shiftLeft_lt hlt (m := 5)
    simpa using this
  refine Nat.xor_lt_two_pow (Nat.xor_lt_two_pow (Nat.xor_lt_two_pow (Nat.xor_lt_two_pow
    (Nat.xor_lt_two_pow h1 ?_) ?_) ?_) ?_) ?_ <;>
    split <;> norm_num

theorem xor_swap_right (x y z : Nat) : x ^^^ y ^^^ z = x ^^^ z ^^^ y := by
  rw [Nat.xor_assoc, Nat.xor_assoc, Nat.xor_comm y z]

/-- Shifting an exclusive-or perturbation of the low 25 bits through one
checksum step. -/
theorem polymodStep_xor (chk d : Nat) (hd : d < 2 ^ 25) :
    polymodStep (chk ^^^ d) = polymodStep chk ^^^ (d <<< 5) := by
  unfold polymodStep
  have hb : (chk ^^^ d) >>> 25 = chk >>> 25 := xor_shiftRight_of_lt chk 25 hd
  have hm : ((chk ^^^ d) &&& 0x1ffffff) <<< 5 =
      ((chk &&& 0x1ffffff) <<< 5) ^^^ (d <<< 5) := by
    rw [xor_and_distrib]
    have hd' : d &&& 0x1ffffff = d := by
      rw [and25_eq_mod, Nat.mod_eq_of_lt hd]
    rw [hd', xor_shiftLeft_distrib]
  rw [hb, hm]
  dsimp only
  generalize (chk &&& 0x1ffffff) <<< 5 = m
  generalize hg1 : (if chk >>> 25 &&& 1 = 1 then 0x3b6a57b2 else (0 : Nat)) = g1
  generalize hg2 : (if (chk >>> 25 >>> 1) &&& 1 = 1 then 0x26508e6d else (0 : Nat)) = g2
  generalize hg3 : (if (chk >>> 25 >>> 2) &&& 1 = 1 then 0x1ea119fa else (0 : Nat)) = g3
  generalize hg4 : (if (chk >>> 25 >>> 3) &&& 1 = 1 then 0x3d4233dd else (0 : Nat)) = g4
  generalize hg5 : (if (chk >>> 25 >>> 4) &&& 1 = 1 then 0x2a1462b3 else (0 : Nat)) = g5
  rw [xor_swap_right m (d <<< 5) g1, xor_swap_right (m ^^^ g1) (d <<< 5) g2,
    xor_swap_right (m ^^^ g1 ^^^ g2) (d <<< 5) g3,
    xor_swap_right (m ^^^ g1 ^^^ g2 ^^^ g3) (d <<< 5) g4,
    xor_swap_right (m ^^^ g1 ^^^ g2 ^^^ g3 ^^^ g4) (d <<< 5) g5]

/-- Checksum state accumulated over a word sequence, the shared loop shape of
encode and decode. -/
def polymodAux (chk : Nat) (vs : List Nat) : Nat :=
  vs.foldl (fun c v => polymodStep c ^^^ v) chk

theorem polymodAux_append (chk : Nat) (v w : List Nat) :
    polymodAux chk (v ++ w) = polymodAux (polymodAux chk v) w := by
  simp [polymodAux]

theorem polymodAux_lt (vs : List Nat) :
    ∀ (chk : Nat), chk < 2 ^ 30 → (∀ v ∈ vs, v < 2 ^ 30) → polymodAux chk vs < 2 ^ 30 := by
  induction vs with
  | nil => intro chk hc _; exact hc
  | cons v rest ih =>
    intro chk _ hv
    refine ih _ ?_ (fun x hx => hv x (List.mem_cons_of_mem v hx))
    exact Nat.xor_lt_two_pow (polymodStep_lt chk) (hv v (List.mem_cons_self v rest))

theorem step_absorb (c D v : Nat) (hD : D < 2 ^ 25) :
    polymodStep (c ^^^ D) ^^^ v = polymodStep c ^^^ (D <<< 5 ^^^ v) := by
  rw [polymodStep_xor c D hD, Nat.xor_assoc]

theorem shl5_xor (a b : Nat) (hb : b < 32) : a <<< 5 ^^^ b = a * 32 + b := by
  have h32 : (2 : Nat) ^ 5 = 32 := by norm_num
  rw [Nat.shiftLeft_eq, h32]
  have := xor_mul_pow_add a 5 b (by omega)
  rw [h32] at this
  exact this

/-- The six checksum words appended by `bech32.encode` make the shared checksum
loop end in exactly `ENCODING_CONST = 1`, which is what `bech32.decode`
requires. -/
theorem checksum_verifies (c0 : Nat) :
    polymodAux c0 ((List.range 6).map
      (fun i => ((sixSteps c0 ^^^ 1) >>> ((5 - i) * 5)) &&& 0x1f)) = 1 := by
  have hr6 : List.range 6 = [0, 1, 2, 3, 4, 5] := rfl
  rw [hr6]
  simp only [List.map_cons, List.map_nil]
  norm_num
  set F := sixSteps c0 ^^^ 1 with hF
  have hFlt : F < 2 ^ 30 := Nat.xor_lt_two_pow (polymodStep_lt _) (by norm_num)
  set n0 := F >>> 25 &&& 0x1f with h0
  set n1 := F >>> 20 &&& 0x1f with h1
  set n2 := F >>> 15 &&& 0x1f with h2
  set n3 := F >>> 10 &&& 0x1f with h3
  set n4 := F >>> 5 &&& 0x1f with h4
  set n5 := F &&& 0x1f with h5
  have hb0 : n0 < 32 := by rw [h0, and31_eq_mod]; omega
  have hb1 : n1 < 32 := by rw [h1, and31_eq_mod]; omega
  have hb2 : n2 < 32 := by rw [h2, and31_eq_mod]; omega
  have hb3 : n3 < 32 := by rw [h3, and31_eq_mod]; omega
  have hb4 : n4 < 32 := by rw [h4, and31_eq_mod]; omega
  have hb5 : n5 < 32 := by rw [h5, and31_eq_mod]; omega
  simp only [polymodAux, List.foldl_cons, List.foldl_nil]
  have e25 : (2 : Nat) ^ 25 = 33554432 := by norm_num
  rw [step_absorb (polymodStep c0) n0 n1 (by omega),
    step_absorb (polymodStep (polymodStep c0)) (n0 <<< 5 ^^^ n1) n2 (by
      rw [shl5_xor n0 n1 hb1]; omega),
    step_absorb (polymodStep (polymodStep (polymodStep c0)))
      ((n0 <<< 5 ^^^ n1) <<< 5 ^^^ n2) n3 (by
      rw [shl5_xor n0 n1 hb1, shl5_xor _ n2 hb2]; omega),
    step_absorb (polymodStep (polymodStep (polymodStep (polymodStep c0))))
      (((n0 <<< 5 ^^^ n1) <<< 5 ^^^ n2) <<< 5 ^^^ n3) n4 (by
      rw [shl5_xor n0 n1 hb1, shl5_xor _ n2 hb2, shl5_xor _ n3 hb3]; omega),
    step_absorb (polymodStep (polymodStep (polymodStep (polymodStep (polymodStep c0)))))
      ((((n0 <<< 5 ^^^ n1) <<< 5 ^^^ n2) <<< 5 ^^^ n3) <<< 5 ^^^ n4) n5 (by
      rw [shl5_xor n0 n1 hb1, shl5_xor _ n2 hb2, shl5_xor _ n3 hb3, shl5_xor _ n4 hb4]
      omega)]
  have hE : ((((n0 <<< 5 ^^^ n1) <<< 5 ^^^ n2) <<< 5 ^^^ n3) <<< 5 ^^^ n4) <<< 5 ^^^ n5
      = F := by
    rw [shl5_xor n0 n1 hb1, shl5_xor _ n2 hb2, shl5_xor _ n3 hb3, shl5_xor _ n4 hb4,
      shl5_xor _ n5 hb5]
    have a0 : n0 = F / 33554432 % 32 := by
      rw [h0, and31_eq_mod, Nat.shiftRight_eq_div_pow, e25]
    have a1 : n1 = F / 1048576 % 32 := by
      rw [h1, and31_eq_mod, Nat.shiftRight_eq_div_pow]
    have a2 : n2 = F / 32768 % 32 := by
      rw [h2, and31_eq_mod, Nat.shiftRight_eq_div_pow]
    have a3 : n3 = F / 1024 % 32 := by
      rw [h3, and31_eq_mod, Nat.shiftRight_eq_div_pow]
    have a4 : n4 = F / 32 % 32 := by
      rw [h4, and31_eq_mod, Nat.shiftRight_eq_div_pow]
    have a5 : n5 = F % 32 := by rw [h5, and31_eq_mod]
    rw [a0, a1, a2, a3, a4, a5]
    have h30 : (2 : Nat) ^ 30 = 1073741824 := by norm_num
    rw [h30] at hFlt
    omega
  rw [hE]
  exact Nat.xor_cancel_left (sixSteps c0) 1

theorem alphaVal_alphaChar : ∀ v : Nat, v < 32 → alphaVal (alphaChar v) = some v := by
  decide

theorem alphaChar_lower : ∀ v : Nat, v < 32 → jsToLower (alphaChar v) = alphaChar v := by
  decide

theorem alphaChar_ne_one : ∀ v : Nat, v < 32 → alphaChar v ≠ '1' := by
  decide

theorem map_id_of {α : Type} (f : α → α) :
    ∀ (l : List α), (∀ c ∈ l, f c = c) → l.map f = l := by
  intro l
  induction l with
  | nil => intro _; rfl
  | cons a t ih =>
    intro h
    simp only [List.map_cons]
    rw [h a (List.mem_cons_self a t), ih (fun c hc => h c (List.mem_cons_of_mem a hc))]

theorem encodeWordsLoop_spec :
    ∀ (ws : List Nat) (chk : Nat) (res : List Char), (∀ w ∈ ws, w < 32) →
      encodeWordsLoop ws chk res = .ok (polymodAux chk ws, res ++ ws.map alphaChar) := by
  intro ws
  induction ws with
  | nil => intro chk res _; simp [encodeWordsLoop, polymodAux]
  | cons w rest ih =>
    intro chk res h
    have hw : w < 32 := h w (List.mem_cons_self w rest)
    have hshift : w >>> 5 = 0 := by
      rw [Nat.shiftRight_eq_div_pow]
      exact Nat.div_eq_of_lt (by norm_num; omega)
    show (if w >>> 5 ≠ 0 then Except.error "Non 5-bit word"
      else encodeWordsLoop rest (polymodStep chk ^^^ w) (res ++ [alphaChar w])) = _
    rw [if_neg (by rw [hshift]; simp)]
    rw [ih _ _ (fun x hx => h x (List.mem_cons_of_mem w hx))]
    simp [polymodAux]

theorem decodeWordsLoop_spec :
    ∀ (vs : List Nat) (i chk : Nat) (acc : List Nat), (∀ v ∈ vs, v < 32) →
      decodeWordsLoop (vs.map alphaChar) i (i + vs.length) chk acc =
        .ok (polymodAux chk vs, acc ++ vs.take (vs.length - 6)) := by
  intro vs
  induction vs with
  | nil => intro i chk acc _; simp [decodeWordsLoop, polymodAux]
  | cons v rest ih =>
    intro i chk acc h
    have hv : v < 32 := h v (List.mem_cons_self v rest)
    have hrest : ∀ x ∈ rest, x < 32 := fun x hx => h x (List.mem_cons_of_mem v hx)
    show (match alphaVal (alphaChar v) with
      | none => Except.error "Unknown character"
      | some w =>
        if i + 6 ≥ i + (rest.length + 1) then
          decodeWordsLoop (rest.map alphaChar) (i + 1) (i + (rest.length + 1))
            (polymodStep chk ^^^ w) acc
        else
          decodeWordsLoop (rest.map alphaChar) (i + 1) (i + (rest.length + 1))
            (polymodStep chk ^^^ w) (acc ++ [w])) = _
    rw [alphaVal_alphaChar v hv]
    dsimp only
    by_cases hc : rest.length + 1 ≤ 6
    · rw [if_pos (by omega)]
      have htot : i + (rest.length + 1) = (i + 1) + rest.length := by omega
      rw [htot, ih (i + 1) (polymodStep chk ^^^ v) acc hrest]
      have ht1 : rest.take (rest.length - 6) = [] := by
        have : rest.length - 6 = 0 := by omega
        rw [this, List.take_zero]
      have ht2 : (v :: rest).take (rest.length + 1 - 6) = [] := by
        have : rest.length + 1 - 6 = 0 := by omega
        rw [this, List.take_zero]
      simp only [List.length_cons, ht2, ht1, List.append_nil]
      rfl
    · rw [if_neg (by omega)]
      have htot : i + (rest.length + 1) = (i + 1) + rest.length := by omega
      rw [htot, ih (i + 1) (polymodStep chk ^^^ v) (acc ++ [v]) hrest]
      have ht2 : (v :: rest).take (rest.length + 1 - 6) = v :: rest.take (rest.length - 6) := by
        have hstep : rest.length + 1 - 6 = (rest.length - 6) + 1 := by omega
        rw [hstep, List.take_succ_cons]
      simp only [List.length_cons, ht2, List.append_assoc, List.singleton_append]
      rfl

theorem prefixChkHigh_ok :
    ∀ (p : List Char) (chk : Nat), (∀ c ∈ p, 33 ≤ c.toNat ∧ c.toNat ≤ 126) →
      ∃ r, prefixChkHigh p chk = .ok r ∧ (chk < 2 ^ 30 → r < 2 ^ 30) := by
  intro p
  induction p with
  | nil => intro chk _; exact ⟨chk, rfl, fun h => h⟩
  | cons c rest ih =>
    intro chk h
    have hc := h c (List.mem_cons_self c rest)
    obtain ⟨r, hr, hb⟩ := ih (polymodStep chk ^^^ (c.toNat >>> 5))
      (fun x hx => h x (List.mem_cons_of_mem c hx))
    refine ⟨r, ?_, fun _ => ?_⟩
    · show (if c.toNat < 33 ∨ 126 < c.toNat then Except.error "Invalid prefix"
        else prefixChkHigh rest (polymodStep chk ^^^ (c.toNat >>> 5))) = _
      rw [if_neg (by omega)]
      exact hr
    · refine hb ?_
      refine Nat.xor_lt_two_pow (polymodStep_lt chk) ?_
      have : c.toNat >>> 5 = c.toNat / 32 := by
        rw [Nat.shiftRight_eq_div_pow]
      rw [this]
      have : c.toNat / 32 ≤ 126 / 32 := Nat.div_le_div_right (by omega)
      calc c.toNat / 32 ≤ 3 := by omega
        _ < 2 ^ 30 := by norm_num

theorem prefixChk_ok (p : List Char) (h : ∀ c ∈ p, 33 ≤ c.toNat ∧ c.toNat ≤ 126) :
    ∃ chk0, prefixChk p = .ok chk0 ∧ chk0 < 2 ^ 30 := by
  obtain ⟨r, hr, hb⟩ := prefixChkHigh_ok p 1 h
  refine ⟨p.foldl (fun chk c => polymodStep chk ^^^ (c.toNat &&& 0x1f)) (polymodStep r),
    ?_, ?_⟩
  · unfold prefixChk
    rw [hr]
  · have hfold : p.foldl (fun chk c => polymodStep chk ^^^ (c.toNat &&& 0x1f))
        (polymodStep r) = polymodAux (polymodStep r) (p.map (fun c => c.toNat &&& 0x1f)) := by
      rw [polymodAux, List.foldl_map]
    rw [hfold]
    refine polymodAux_lt _ _ (polymodStep_lt r) ?_
    intro v hv
    rcases List.mem_map.mp hv with ⟨c, _, rfl⟩
    rw [and31_eq_mod]
    calc c.toNat % 32 < 32 := Nat.mod_lt _ (by norm_num)
      _ < 2 ^ 30 := by norm_num

theorem lastIndexOf_not_mem (c : Char) :
    ∀ (l : List Char), c ∉ l → lastIndexOf l c = none := by
  intro l
  induction l with
  | nil => intro _; rfl
  | cons a t ih =>
    intro h
    show (match lastIndexOf t c with
      | some i => some (i + 1)
      | none => if a = c then some 0 else none) = none
    rw [ih (fun hm => h (List.mem_cons_of_mem a hm))]
    rw [if_neg (fun he => h (by rw [← he]; exact List.mem_cons_self a t))]

theorem lastIndexOf_concat (c : Char) (rest : List Char) (hrest : c ∉ rest) :
    ∀ (p : List Char), lastIndexOf (p ++ c :: rest) c = some p.length := by
  intro p
  induction p with
  | nil =>
    show (match lastIndexOf rest c with
      | some i => some (i + 1)
      | none => if c = c then some 0 else none) = some 0
    rw [lastIndexOf_not_mem c rest hrest, if_pos rfl]
  | cons a t ih =>
    show (match lastIndexOf (t ++ c :: rest) c with
      | some i => some (i + 1)
      | none => if a = c then some 0 else none) = some (t.length + 1)
    rw [ih]

theorem jsToLower_one : jsToLower '1' = '1' := by decide

/-- Encoding with the bech32 checksum and decoding recovers the human-readable
part and the payload words, for any lowercase prefix of printable characters
and any 5-bit payload that fits the decode length limit. -/
theorem bech32_decode_encode (hrp : List Char) (ws : List Nat)
    (hne : hrp ≠ [])
    (hchars : ∀ c ∈ hrp, 33 ≤ c.toNat ∧ c.toNat ≤ 126 ∧ jsToLower c = c)
    (hlen : hrp.length + 7 + ws.length ≤ 90)
    (hws : ∀ w ∈ ws, w < 32) :
    ∃ s, bech32Encode hrp ws 256 = .ok s ∧ bech32Decode s 90 = .ok (hrp, ws) := by
  have hlow : hrp.map jsToLower = hrp := map_id_of _ hrp (fun c hc => (hchars c hc).2.2)
  obtain ⟨chk0, hpc, hchk0⟩ :=
    prefixChk_ok hrp (fun c hc => ⟨(hchars c hc).1, (hchars c hc).2.1⟩)
  have henc_loop := encodeWordsLoop_spec ws chk0 [] hws
  rw [List.nil_append] at henc_loop
  set c1 := polymodAux chk0 ws with hc1
  set F := sixSteps c1 ^^^ 1 with hF
  set cs := (List.range 6).map (fun i => (F >>> ((5 - i) * 5)) &&& 0x1f) with hcs
  have hcs6 : cs.length = 6 := by rw [hcs]; simp
  have hcslt : ∀ v ∈ cs, v < 32 := by
    intro v hv
    rw [hcs] at hv
    rcases List.mem_map.mp hv with ⟨i, _, rfl⟩
    rw [and31_eq_mod]
    exact Nat.mod_lt _ (by norm_num)
  have hcschars : (List.range 6).map (fun i => alphaChar ((F >>> ((5 - i) * 5)) &&& 0x1f)) =
      cs.map alphaChar := by
    rw [hcs, List.map_map]
    rfl
  set rest := ws.map alphaChar ++ cs.map alphaChar with hrest
  set s := hrp ++ '1' :: rest with hs
  have hrestlow : ∀ c ∈ rest, jsToLower c = c := by
    intro c hc
    rw [hrest] at hc
    rcases List.mem_append.mp hc with h | h
    · rcases List.mem_map.mp h with ⟨w, hw, rfl⟩
      exact alphaChar_lower w (hws w hw)
    · rcases List.mem_map.mp h with ⟨w, hw, rfl⟩
      exact alphaChar_lower w (hcslt w hw)
  have hrestone : '1' ∉ rest := by
    intro hc
    rw [hrest] at hc
    rcases List.mem_append.mp hc with h | h
    · rcases List.mem_map.mp h with ⟨w, hw, he⟩
      exact alphaChar_ne_one w (hws w hw) he
    · rcases List.mem_map.mp h with ⟨w, hw, he⟩
      exact alphaChar_ne_one w (hcslt w hw) he
  have henc : bech32Encode hrp ws 256 = .ok s := by
    simp only [bech32Encode]
    rw [if_neg (by omega), hlow, hpc]
    dsimp only
    rw [henc_loop]
    dsimp only
    rw [← hF, hcschars, ← hrest, hs]
  refine ⟨s, henc, ?_⟩
  have hslen : s.length = hrp.length + 1 + (ws.length + 6) := by
    rw [hs, hrest]
    simp only [List.length_append, List.length_cons, List.length_map, hcs6]
    omega
  have hhrplen : 0 < hrp.length := List.length_pos.mpr hne
  have hslow : s.map jsToLower = s := by
    rw [hs]
    rw [List.map_append, List.map_cons, hlow, jsToLower_one,
      map_id_of jsToLower rest hrestlow]
  have hlast : lastIndexOf (s.map jsToLower) '1' = some hrp.length := by
    rw [hslow, hs]
    exact lastIndexOf_concat '1' rest hrestone hrp
  have htake : (s.map jsToLower).take hrp.length = hrp := by
    rw [hslow, hs]
    exact List.take_left hrp ('1' :: rest)
  have hdrop : (s.map jsToLower).drop (hrp.length + 1) = rest := by
    rw [hslow, hs]
    have : hrp ++ '1' :: rest = (hrp ++ ['1']) ++ rest := by simp
    rw [this]
    have hl : (hrp ++ ['1']).length = hrp.length + 1 := by simp
    rw [← hl]
    exact List.drop_left (hrp ++ ['1']) rest
  have hrestm : rest = (ws ++ cs).map alphaChar := by
    rw [hrest, List.map_append]
  have hrestlen : rest.length = (ws ++ cs).length := by
    rw [hrestm, List.length_map]
  have hdecloop : decodeWordsLoop rest 0 rest.length chk0 [] =
      .ok (polymodAux chk0 (ws ++ cs), ws) := by
    have h0 : rest.length = 0 + (ws ++ cs).length := by rw [hrestlen]; omega
    rw [h0, hrestm]
    rw [decodeWordsLoop_spec (ws ++ cs) 0 chk0 []
      (by intro v hv; rcases List.mem_append.mp hv with h | h
          · exact hws v h
          · exact hcslt v h)]
    have hlen2 : (ws ++ cs).length - 6 = ws.length := by
      simp [hcs6]
    rw [hlen2]
    have : (ws ++ cs).take ws.length = ws := List.take_left ws cs
    rw [this, List.nil_append]
  have hchkfin : polymodAux chk0 (ws ++ cs) = 1 := by
    rw [polymodAux_append, ← hc1, hcs, hF]
    exact checksum_verifies c1
  show bech32Decode s 90 = .ok (hrp, ws)
  simp only [bech32Decode]
  rw [if_neg (by omega), if_neg (by omega)]
  rw [if_neg (by
    rw [hslow]
    intro hcon
    exact hcon.1 rfl)]
  rw [hlast]
  dsimp only
  rw [if_neg (by omega)]
  rw [htake, hdrop, hpc]
  have hrl : rest.length = ws.length + 6 := by
    rw [hrestlen]
    simp [hcs6]
  rw [if_neg (by omega)]
  dsimp only
  rw [hdecloop]
  dsimp only
  rw [hchkfin]
  rw [if_neg (by omega)]

/-! ## Character codecs (Node `Buffer`) and `AddressUtils` (src/address.ts) -/

/-- One character of the `[0-9a-fA-F]` class. -/
def isHexDigit (c : Char) : Bool :=
  (('0' ≤ c ∧ c ≤ '9') ∨ ('a' ≤ c ∧ c ≤ 'f') ∨ ('A' ≤ c ∧ c ≤ 'F') : Prop)

/-- One character of the `[0-9a-f]` class. -/
def isLowerHexDigit (c : Char) : Bool :=
  (('0' ≤ c ∧ c ≤ '9') ∨ ('a' ≤ c ∧ c ≤ 'f') : Prop)

def hexDigitVal (c : Char) : Option Nat :=
  if '0' ≤ c ∧ c ≤ '9' then some (c.toNat - 48)
  else if 'a' ≤ c ∧ c ≤ 'f' then some (c.toNat - 97 + 10)
  else if 'A' ≤ c ∧ c ≤ 'F' then some (c.toNat - 65 + 10)
  else none

/-- Node `Buffer.from(str, 'hex')`: consumes hex-digit pairs from the left and
silently stops at the first character pair that is not two hex digits (it never
throws). -/
def hexPairsLenient : List Char → List Nat
  | c1 :: c2 :: rest =>
    match hexDigitVal c1, hexDigitVal c2 with
    | some h, some l => (16 * h + l) :: hexPairsLenient rest
    | _, _ => []
  | _ => []

/-- The hex digit for `n < 16`, digits `0`–`9` then `a`–`f` (as
`toString(16)` renders one nibble). -/
def hexDigitChar (n : Nat) : Char :=
  if n < 10 then Char.ofNat (48 + n) else Char.ofNat (87 + n)

/-- Lowercase hex rendering of a byte string (how a caller would write the
identifier bytes as text). -/
def bytesToHexChars (bs : List Nat) : List Char :=
  bs.flatMap (fun b => [hexDigitChar (b / 16), hexDigitChar (b % 16)])

/-- `AddressUtils.isEthAddress`: the regex `^0x[0-9a-fA-F]{40}$`. -/
def isEthAddress (address : List Char) : Bool :=
  match address with
  | '0' :: 'x' :: rest => rest.length = 40 && rest.all isHexDigit
  | _ => false

/-- `str.replace('0x', '')`: removes the first occurrence of `0x`, scanning
from the left. -/
def replaceFirst0x : List Char → List Char
  | '0' :: 'x' :: rest => rest
  | c :: rest => c :: replaceFirst0x rest
  | [] => []

/-- `AddressUtils.ethAddressToBech32` from src/address.ts (the validated
revision, the one the test-suite exercises).  Thrown errors are
`Except.error`; the outer catch re-wraps inner messages. -/
def ethAddressToBech32 (ethAddress : List Char) (hrp : List Char) :
    Except String (List Char) :=
  if ¬ isEthAddress ethAddress then .error "Invalid ETH address format"
  else
    let cleanAddress := (replaceFirst0x ethAddress).map jsToLower
    if ¬ (cleanAddress.length = 40 ∧ cleanAddress.all isLowerHexDigit) then
      .error "Invalid ETH address: Invalid ETH address characters"
    else
      let addressBytes := hexPairsLenient cleanAddress
      if addressBytes.length ≠ 20 then
        .error "Invalid ETH address: Invalid ETH address length"
      else
        match convertBits addressBytes 8 5 true with
        | .error e => .error ("Invalid ETH address: " ++ e)
        | .ok words =>
          match bech32Encode hrp words 256 with
          | .error e => .error ("Invalid ETH address: " ++ e)
          | .ok s => .ok s

theorem hexDigitChar_lower_hex : ∀ n : Nat, n < 16 → isLowerHexDigit (hexDigitChar n) = true := by
  decide

theorem hexDigitChar_hex : ∀ n : Nat, n < 16 → isHexDigit (hexDigitChar n) = true := by
  decide

theorem hexDigitChar_lower_fix : ∀ n : Nat, n < 16 → jsToLower (hexDigitChar n) = hexDigitChar n := by
  decide

theorem hexDigitVal_hexDigitChar : ∀ n : Nat, n < 16 → hexDigitVal (hexDigitChar n) = some n := by
  decide

theorem bytesToHexChars_cons (b : Nat) (rest : List Nat) :
    bytesToHexChars (b :: rest) =
      hexDigitChar (b / 16) :: hexDigitChar (b % 16) :: bytesToHexChars rest := by
  simp [bytesToHexChars]

theorem bytesToHexChars_length : ∀ (bs : List Nat), (bytesToHexChars bs).length = 2 * bs.length := by
  intro bs
  induction bs with
  | nil => rfl
  | cons b rest ih =>
    rw [bytesToHexChars_cons]
    simp only [List.length_cons, ih]
    omega

theorem bytesToHexChars_mem : ∀ (bs : List Nat), (∀ b ∈ bs, b < 256) →
    ∀ c ∈ bytesToHexChars bs, ∃ n, n < 16 ∧ c = hexDigitChar n := by
  intro bs
  induction bs with
  | nil => intro _ c hc; simp [bytesToHexChars] at hc
  | cons b rest ih =>
    intro h c hc
    have hb : b < 256 := h b (List.mem_cons_self b rest)
    rw [bytesToHexChars_cons] at hc
    rcases List.mem_cons.mp hc with rfl | hc'
    · exact ⟨b / 16, by omega, rfl⟩
    rcases List.mem_cons.mp hc' with rfl | hc''
    · exact ⟨b % 16, by omega, rfl⟩
    exact ih (fun x hx => h x (List.mem_cons_of_mem b hx)) c hc''

theorem hexPairs_bytesToHex : ∀ (bs : List Nat), (∀ b ∈ bs, b < 256) →
    hexPairsLenient (bytesToHexChars bs) = bs := by
  intro bs
  induction bs with
  | nil => intro _; rfl
  | cons b rest ih =>
    intro h
    have hb : b < 256 := h b (List.mem_cons_self b rest)
    rw [bytesToHexChars_cons]
    show (match hexDigitVal (hexDigitChar (b / 16)), hexDigitVal (hexDigitChar (b % 16)) with
      | some hi, some lo => (16 * hi + lo) :: hexPairsLenient (bytesToHexChars rest)
      | _, _ => []) = b :: rest
    rw [hexDigitVal_hexDigitChar (b / 16) (by omega), hexDigitVal_hexDigitChar (b % 16) (by omega)]
    dsimp only
    rw [ih (fun x hx => h x (List.mem_cons_of_mem b hx))]
    congr 1
    omega

/-- C6: deriving a bech32 string from a 20-byte identifier with
`ethAddressToBech32` (8-to-5-bit regrouping with padding, then checksummed
bech32 encoding) and decoding it back (bech32 decode, then 5-to-8-bit
regrouping without padding) recovers exactly the original 20 bytes. -/
theorem eth_derive_decode_roundtrip (bs : List Nat) (hrp : List Char)
    (h20 : bs.length = 20) (hb : ∀ b ∈ bs, b < 256)
    (hne : hrp ≠ [])
    (hchars : ∀ c ∈ hrp, 33 ≤ c.toNat ∧ c.toNat ≤ 126 ∧ jsToLower c = c)
    (hlen : hrp.length ≤ 51) :
    ∃ s ws, ethAddressToBech32 ('0' :: 'x' :: bytesToHexChars bs) hrp = .ok s ∧
      bech32Decode s 90 = .ok (hrp, ws) ∧ convertBits ws 5 8 false = .ok bs := by
  have hhexlen : (bytesToHexChars bs).length = 40 := by
    rw [bytesToHexChars_length, h20]
  have hmem := bytesToHexChars_mem bs hb
  have hisEth : isEthAddress ('0' :: 'x' :: bytesToHexChars bs) = true := by
    show ((bytesToHexChars bs).length = 40 && (bytesToHexChars bs).all isHexDigit) = true
    rw [Bool.and_eq_true]
    constructor
    · simp [hhexlen]
    · rw [List.all_eq_true]
      intro c hc
      obtain ⟨n, hn, rfl⟩ := hmem c hc
      exact hexDigitChar_hex n hn
  have hclean : (replaceFirst0x ('0' :: 'x' :: bytesToHexChars bs)).map jsToLower =
      bytesToHexChars bs := by
    show (bytesToHexChars bs).map jsToLower = bytesToHexChars bs
    apply map_id_of
    intro c hc
    obtain ⟨n, hn, rfl⟩ := hmem c hc
    exact hexDigitChar_lower_fix n hn
  obtain ⟨ws, henc, hwlen, hwlt, hdecws⟩ := convertBits_roundtrip_20 bs h20 hb
  obtain ⟨s, hbe, hbd⟩ := bech32_decode_encode hrp ws hne hchars (by omega) hwlt
  refine ⟨s, ws, ?_, hbd, hdecws⟩
  unfold ethAddressToBech32
  rw [if_neg (by rw [hisEth]; simp)]
  rw [hclean]
  rw [if_neg (by
    push_neg
    refine ⟨hhexlen, ?_⟩
    rw [List.all_eq_true]
    intro c hc
    obtain ⟨n, hn, rfl⟩ := hmem c hc
    exact hexDigitChar_lower_hex n hn)]
  rw [hexPairs_bytesToHex bs hb]
  rw [if_neg (by omega)]
  rw [henc]
  dsimp only
  rw [hbe]

/-- Bridging lemmas from the `Char` order to code points, for the hex-digit
character classes used by `isEthAddress` and the Node hex decoder. -/
theorem char_le_iff (a b : Char) : (a ≤ b) ↔ a.toNat ≤ b.toNat := by
  exact_mod_cast Char.le_def

theorem char_toNat_ofNat (n : Nat) (h : n < 55296) : (Char.ofNat n).toNat = n := by
  unfold Char.ofNat
  rw [dif_pos (Or.inl h : Nat.isValidChar n)]
  rfl

theorem isHexDigit_iff (c : Char) :
    isHexDigit c = true ↔ (48 ≤ c.toNat ∧ c.toNat ≤ 57) ∨
      (97 ≤ c.toNat ∧ c.toNat ≤ 102) ∨ (65 ≤ c.toNat ∧ c.toNat ≤ 70) := by
  simp only [isHexDigit, decide_eq_true_eq, char_le_iff,
    show '0'.toNat = 48 from rfl, show '9'.toNat = 57 from rfl,
    show 'a'.toNat = 97 from rfl, show 'f'.toNat = 102 from rfl,
    show 'A'.toNat = 65 from rfl, show 'F'.toNat = 70 from rfl]

theorem isLowerHexDigit_iff (c : Char) :
    isLowerHexDigit c = true ↔ (48 ≤ c.toNat ∧ c.toNat ≤ 57) ∨
      (97 ≤ c.toNat ∧ c.toNat ≤ 102) := by
  simp only [isLowerHexDigit, decide_eq_true_eq, char_le_iff,
    show '0'.toNat = 48 from rfl, show '9'.toNat = 57 from rfl,
    show 'a'.toNat = 97 from rfl, show 'f'.toNat = 102 from rfl]

theorem jsToLower_hexDigit (c : Char) (h : isHexDigit c = true) :
    isLowerHexDigit (jsToLower c) = true := by
  rw [isHexDigit_iff] at h
  rw [isLowerHexDigit_iff]
  unfold jsToLower
  rcases h with h | h | h
  · rw [if_neg (by omega)]
    omega
  · rw [if_neg (by omega)]
    omega
  · rw [if_pos (by omega)]
    rw [char_toNat_ofNat (c.toNat + 32) (by omega)]
    omega

theorem hexDigitVal_lower (c : Char) (h : isLowerHexDigit c = true) :
    ∃ v, hexDigitVal c = some v ∧ v < 16 := by
  rw [isLowerHexDigit_iff] at h
  unfold hexDigitVal
  rcases h with h | h
  · rw [if_pos (by
      rw [char_le_iff, char_le_iff, show '0'.toNat = 48 from rfl, show '9'.toNat = 57 from rfl]
      omega)]
    exact ⟨c.toNat - 48, rfl, by omega⟩
  · rw [if_neg (by
      rw [char_le_iff, char_le_iff, show '0'.toNat = 48 from rfl, show '9'.toNat = 57 from rfl]
      omega)]
    rw [if_pos (by
      rw [char_le_iff, char_le_iff, show 'a'.toNat = 97 from rfl, show 'f'.toNat = 102 from rfl]
      omega)]
    exact ⟨c.toNat - 97 + 10, rfl, by omega⟩

theorem hexPairsLenient_all : ∀ (cs : List Char),
    (∀ c ∈ cs, isLowerHexDigit c = true) → cs.length % 2 = 0 →
    (hexPairsLenient cs).length = cs.length / 2 ∧
      ∀ b ∈ hexPairsLenient cs, b < 256 := by
  intro cs
  induction cs using hexPairsLenient.induct with
  | case1 c1 c2 rest h l hv2 hv1 ih =>
    intro hall heven
    obtain ⟨hlen, hmem⟩ := ih
      (fun c hc => hall c (List.mem_cons_of_mem c1 (List.mem_cons_of_mem c2 hc)))
      (by simp only [List.length_cons] at heven; omega)
    have hh : h < 16 := by
      obtain ⟨v, hv, hvlt⟩ := hexDigitVal_lower c1 (hall c1 (by simp))
      rw [hv1] at hv
      injection hv with hv
      omega
    have hl : l < 16 := by
      obtain ⟨v, hv, hvlt⟩ := hexDigitVal_lower c2 (hall c2 (by simp))
      rw [hv2] at hv
      injection hv with hv
      omega
    have hunf : hexPairsLenient (c1 :: c2 :: rest) = (16 * h + l) :: hexPairsLenient rest := by
      show (match hexDigitVal c1, hexDigitVal c2 with
        | some h, some l => (16 * h + l) :: hexPairsLenient rest
        | _, _ => []) = _
      rw [hv1, hv2]
    rw [hunf]
    refine ⟨by simp [hlen]; omega, ?_⟩
    intro b hb
    rcases List.mem_cons.mp hb with rfl | hb
    · omega
    · exact hmem b hb
  | case2 c1 c2 rest hnone =>
    intro hall heven
    obtain ⟨v1, hv1, _⟩ := hexDigitVal_lower c1 (hall c1 (by simp))
    obtain ⟨v2, hv2, _⟩ := hexDigitVal_lower c2 (hall c2 (by simp))
    exact absurd (hnone v1 v2) (by simp [hv1, hv2])
  | case3 cs hshort =>
    intro hall heven
    cases cs with
    | nil => exact ⟨rfl, by intro b hb; simp [hexPairsLenient] at hb⟩
    | cons c t =>
      cases t with
      | nil => simp at heven
      | cons c2 t2 => exact absurd rfl (hshort c c2 t2)

theorem isEthAddress_inv (addr : List Char) (h : isEthAddress addr = true) :
    ∃ rest, addr = '0' :: 'x' :: rest ∧ rest.length = 40 ∧
      ∀ c ∈ rest, isHexDigit c = true := by
  rw [isEthAddress.eq_def] at h
  split at h
  · next rest =>
    rw [Bool.and_eq_true, decide_eq_true_eq, List.all_eq_true] at h
    exact ⟨rest, rfl, h.1, h.2⟩
  · exact absurd h (by simp)

theorem ethAddressToBech32_ok (addr hrp : List Char)
    (hhex : isEthAddress addr = true)
    (hne : hrp ≠ [])
    (hchars : ∀ c ∈ hrp, 33 ≤ c.toNat ∧ c.toNat ≤ 126 ∧ jsToLower c = c)
    (hlen : hrp.length ≤ 51) :
    ∃ s, ethAddressToBech32 addr hrp = .ok s := by
  obtain ⟨rest, rfl, h40, hall⟩ := isEthAddress_inv addr hhex
  have hcleanall : ∀ c ∈ rest.map jsToLower, isLowerHexDigit c = true := by
    intro c hc
    obtain ⟨c0, hc0, rfl⟩ := List.mem_map.mp hc
    exact jsToLower_hexDigit c0 (hall c0 hc0)
  have hcleanlen : (rest.map jsToLower).length = 40 := by simp [h40]
  obtain ⟨hplen, hpmem⟩ := hexPairsLenient_all (rest.map jsToLower) hcleanall
    (by rw [hcleanlen])
  rw [hcleanlen] at hplen
  norm_num at hplen
  obtain ⟨ws, henc, hwlen, hwlt, _⟩ :=
    convertBits_8_5_val (hexPairsLenient (rest.map jsToLower)) hpmem (by rw [hplen])
  rw [hplen] at hwlen
  norm_num at hwlen
  obtain ⟨s, hbe, _⟩ := bech32_decode_encode hrp ws hne hchars (by omega) hwlt
  refine ⟨s, ?_⟩
  unfold ethAddressToBech32
  rw [if_neg (by rw [hhex]; simp)]
  have hrepl : replaceFirst0x ('0' :: 'x' :: rest) = rest := rfl
  rw [hrepl]
  rw [if_neg (by
    push_neg
    rw [List.all_eq_true]
    exact ⟨hcleanlen, hcleanall⟩)]
  rw [if_neg (by rw [hplen]; omega)]
  rw [henc]
  dsimp only
  rw [hbe]

/-! ## Hash primitives called by `pubKeyToAddress`
(`@noble/hashes` `sha256` and `ripemd160`).  These are only ever evaluated at
concrete inputs; all arithmetic is on 32-bit words kept below `2 ^ 32`. -/

def M32 : Nat := 4294967296

def not32 (x : Nat) : Nat := x ^^^ 4294967295

def rotr32 (n x : Nat) : Nat := ((x >>> n) ||| (x <<< (32 - n))) % M32

def rotl32 (n x : Nat) : Nat := ((x <<< n) % M32) ||| (x >>> (32 - n))

/-- Big-endian byte rendering of `x` on `k` bytes. -/
def toBytesBE (k x : Nat) : List Nat :=
  (List.range k).map (fun i => (x >>> (8 * (k - 1 - i))) % 256)

/-- Little-endian byte rendering of `x` on `k` bytes. -/
def toBytesLE (k x : Nat) : List Nat :=
  (List.range k).map (fun i => (x >>> (8 * i)) % 256)

/-- Split into 64-byte blocks; the fuel argument (any bound on the number of
blocks, here the length) keeps the recursion structural so it evaluates inside
the kernel. -/
def chunk64Aux : Nat → List Nat → List (List Nat)
  | _, [] => []
  | 0, _ => []
  | fuel + 1, l => l.take 64 :: chunk64Aux fuel (l.drop 64)

def chunk64 (l : List Nat) : List (List Nat) := chunk64Aux l.length l

def wordsBE : List Nat → List Nat
  | a :: b :: c :: d :: rest => (a * 16777216 + b * 65536 + c * 256 + d) :: wordsBE rest
  | _ => []

def wordsLE : List Nat → List Nat
  | a :: b :: c :: d :: rest => (d * 16777216 + c * 65536 + b * 256 + a) :: wordsLE rest
  | _ => []

def sha256K : List Nat :=
  [1116352408, 1899447441, 3049323471, 3921009573, 961987163, 1508970993,
   2453635748, 2870763221, 3624381080, 310598401, 607225278, 1426881987,
   1925078388, 2162078206, 2614888103, 3248222580, 3835390401, 4022224774,
   264347078, 604807628, 770255983, 1249150122, 1555081692, 1996064986,
   2554220882, 2821834349, 2952996808, 3210313671, 3336571891, 3584528711,
   113926993, 338241895, 666307205, 773529912, 1294757372, 1396182291,
   1695183700, 1986661051, 2177026350, 2456956037, 2730485921, 2820302411,
   3259730800, 3345764771, 3516065817, 3600352804, 4094571909, 275423344,
   430227734, 506948616, 659060556, 883997877, 958139571, 1322822218,
   1537002063, 1747873779, 1955562222, 2024104815, 2227730452, 2361852424,
   2428436474, 2756734187, 3204031479, 3329325298]

def shaPad (le : Bool) (msg : List Nat) : List Nat :=
  let len := msg.length
  let padLen := (64 - (len + 9) % 64) % 64
  msg ++ [0x80] ++ List.replicate padLen 0 ++
    (if le then toBytesLE 8 (8 * len) else toBytesBE 8 (8 * len))

def shaS0 (x : Nat) : Nat := rotr32 2 x ^^^ rotr32 13 x ^^^ rotr32 22 x
def shaS1 (x : Nat) : Nat := rotr32 6 x ^^^ rotr32 11 x ^^^ rotr32 25 x
def shas0 (x : Nat) : Nat := rotr32 7 x ^^^ rotr32 18 x ^^^ (x >>> 3)
def shas1 (x : Nat) : Nat := rotr32 17 x ^^^ rotr32 19 x ^^^ (x >>> 10)
def shaCh (e f g : Nat) : Nat := (e &&& f) ^^^ (not32 e &&& g)
def shaMaj (a b c : Nat) : Nat := (a &&& b) ^^^ (a &&& c) ^^^ (b &&& c)

def sha256Extend (w : List Nat) : List Nat :=
  (List.range 48).foldl
    (fun w _ =>
      w ++ [(shas1 (w.getD (w.length - 2) 0) + w.getD (w.length - 7) 0 +
             shas0 (w.getD (w.length - 15) 0) + w.getD (w.length - 16) 0) % M32])
    w

def sha256Compress (h : List Nat) (block : List Nat) : List Nat :=
  let w := sha256Extend (wordsBE block)
  let final := (List.zip w sha256K).foldl
    (fun st wk =>
      match st with
      | [a, b, c, d, e, f, g, hh] =>
        let t1 := (hh + shaS1 e + shaCh e f g + wk.2 + wk.1) % M32
        let t2 := (shaS0 a + shaMaj a b c) % M32
        [(t1 + t2) % M32, a, b, c, (d + t1) % M32, e, f, g]
      | other => other) h
  (List.zip h final).map (fun p => (p.1 + p.2) % M32)

def sha256 (msg : List Nat) : List Nat :=
  let H0 : List Nat := [0x6a09e667, 0xbb67ae85, 0x3c6ef372, 0xa54ff53a,
                        0x510e527f, 0x9b05688c, 0x1f83d9ab, 0x5be0cd19]
  ((chunk64 (shaPad false msg)).foldl sha256Compress H0).flatMap (toBytesBE 4)

def ripemdRL : List Nat :=
  [0, 1, 2, 3, 4, 5, 6, 7, 8, 9, 10, 11, 12, 13, 14, 15,
   7, 4, 13, 1, 10, 6, 15, 3, 12, 0, 9, 5, 2, 14, 11, 8,
   3, 10, 14, 4, 9, 15, 8, 1, 2, 7, 0, 6, 13, 11, 5, 12,
   1, 9, 11, 10, 0, 8, 12, 4, 13, 3, 7, 15, 14, 5, 6, 2,
   4, 0, 5, 9, 7, 12, 2, 10, 14, 1, 3, 8, 11, 6, 15, 13]

def ripemdRR : List Nat :=
  [5, 14, 7, 0, 9, 2, 11, 4, 13, 6, 15, 8, 1, 10, 3, 12,
   6, 11, 3, 7, 0, 13, 5, 10, 14, 15, 8, 12, 4, 9, 1, 2,
   15, 5, 1, 3, 7, 14, 6, 9, 11, 8, 12, 2, 10, 0, 4, 13,
   8, 6, 4, 1, 3, 11, 15, 0, 5, 12, 2, 13, 9, 7, 10, 14,
   12, 15, 10, 4, 1, 5, 8, 7, 6, 2, 13, 14, 0, 3, 9, 11]

def ripemdSL : List Nat :=
  [11, 14, 15, 12, 5, 8, 7, 9, 11, 13, 14, 15, 6, 7, 9, 8,
   7, 6, 8, 13, 11, 9, 7, 15, 7, 12, 15, 9, 11, 7, 13, 12,
   11, 13, 6, 7, 14, 9, 13, 15, 14, 8, 13, 6, 5, 12, 7, 5,
   11, 12, 14, 15, 14, 15, 9, 8, 9, 14, 5, 6, 8, 6, 5, 12,
   9, 15, 5, 11, 6, 8, 13, 12, 5, 12, 13, 14, 11, 8, 5, 6]

def ripemdSR : List Nat :=
  [8, 9, 9, 11, 13, 15, 15, 5, 7, 7, 8, 11, 14, 14, 12, 6,
   9, 13, 15, 7, 12, 8, 9, 11, 7, 7, 12, 7, 6, 15, 13, 11,
   9, 7, 15, 11, 8, 6, 6, 14, 12, 13, 5, 14, 13, 13, 7, 5,
   15, 5, 8, 11, 14, 14, 6, 14, 6, 9, 12, 9, 12, 5, 15, 8,
   8, 5, 12, 9, 12, 5, 14, 6, 8, 13, 6, 5, 15, 13, 11, 11]

def ripemdF (j x y z : Nat) : Nat :=
  if j < 16 then x ^^^ y ^^^ z
  else if j < 32 then (x &&& y) ||| (not32 x &&& z)
  else if j < 48 then (x ||| not32 y) ^^^ z
  else if j < 64 then (x &&& z) ||| (y &&& not32 z)
  else x ^^^ (y ||| not32 z)

def ripemdKL (j : Nat) : Nat :=
  if j < 16 then 0 else if j < 32 then 0x5a827999 else if j < 48 then 0x6ed9eba1
  else if j < 64 then 0x8f1bbcdc else 0xa953fd4e

def ripemdKR (j : Nat) : Nat :=
  if j < 16 then 0x50a28be6 else if j < 32 then 0x5c4dd124 else if j < 48 then 0x6d703ef3
  else if j < 64 then 0x7a6d76e9 else 0

/-- One RIPEMD-160 lane step. -/
def ripemdStep (x : List Nat) (f : Nat → Nat → Nat → Nat → Nat) (r s : List Nat)
    (k : Nat → Nat) (st : List Nat) (j : Nat) : List Nat :=
  match st with
  | [a, b, c, d, e] =>
    let t := (rotl32 (s.getD j 0) ((a + f j b c d + x.getD (r.getD j 0) 0 + k j) % M32) + e)
      % M32
    [e, t, b, rotl32 10 c, d]
  | other => other

def ripemdCompress (h : List Nat) (block : List Nat) : List Nat :=
  let x := wordsLE block
  let left := (List.range 80).foldl (ripemdStep x ripemdF ripemdRL ripemdSL ripemdKL) h
  let right := (List.range 80).foldl
    (ripemdStep x (fun j a b c => ripemdF (79 - j) a b c) ripemdRR ripemdSR ripemdKR) h
  [(h.getD 1 0 + left.getD 2 0 + right.getD 3 0) % M32,
   (h.getD 2 0 + left.getD 3 0 + right.getD 4 0) % M32,
   (h.getD 3 0 + left.getD 4 0 + right.getD 0 0) % M32,
   (h.getD 4 0 + left.getD 0 0 + right.getD 1 0) % M32,
   (h.getD 0 0 + left.getD 1 0 + right.getD 2 0) % M32]

def ripemd160 (msg : List Nat) : List Nat :=
  let H0 : List Nat := [0x67452301, 0xefcdab89, 0x98badcfe, 0x10325476, 0xc3d2e1f0]
  ((chunk64 (shaPad true msg)).foldl ripemdCompress H0).flatMap (toBytesLE 4)

/-! ## Base64 (Node `Buffer` codec) and `AddressUtils.pubKeyToAddress` -/

def BASE64_CHARS : List Char :=
  ['A', 'B', 'C', 'D', 'E', 'F', 'G', 'H', 'I', 'J', 'K', 'L', 'M',
   'N', 'O', 'P', 'Q', 'R', 'S', 'T', 'U', 'V', 'W', 'X', 'Y', 'Z',
   'a', 'b', 'c', 'd', 'e', 'f', 'g', 'h', 'i', 'j', 'k', 'l', 'm',
   'n', 'o', 'p', 'q', 'r', 's', 't', 'u', 'v', 'w', 'x', 'y', 'z',
   '0', '1', '2', '3', '4', '5', '6', '7', '8', '9', '+', '/']

def b64Char (n : Nat) : Char := BASE64_CHARS.getD n 'A'

def b64Val (c : Char) : Option Nat := BASE64_CHARS.findIdx? (· = c)

/-- Standard base64 rendering of a byte string, with `=` padding (what
`Buffer.toString('base64')` produces — the caller-side encoding named by the
specification). -/
def base64Encode : List Nat → List Char
  | a :: b :: c :: rest =>
    b64Char (a / 4) :: b64Char ((a % 4) * 16 + b / 16) ::
      b64Char ((b % 16) * 4 + c / 64) :: b64Char (c % 64) :: base64Encode rest
  | [a, b] =>
    [b64Char (a / 4), b64Char ((a % 4) * 16 + b / 16), b64Char ((b % 16) * 4), '=']
  | [a] => [b64Char (a / 4), b64Char ((a % 4) * 16), '=', '=']
  | [] => []

def sextetsToBytes : List Nat → List Nat
  | a :: b :: c :: d :: rest =>
    (a * 4 + b / 16) :: ((b % 16) * 16 + c / 4) :: ((c % 4) * 64 + d) :: sextetsToBytes rest
  | [a, b, c] => [a * 4 + b / 16, (b % 16) * 16 + c / 4]
  | [a, b] => [a * 4 + b / 16]
  | _ => []

/-- Node `Buffer.from(str, 'base64')`: ignores characters outside the base64
alphabet (including `=` padding), then converts the remaining sextets,
dropping a trailing partial byte.  It never throws. -/
def base64Decode (s : List Char) : List Nat :=
  sextetsToBytes (s.filterMap b64Val)

/-- The argument accepted by `pubKeyToAddress` (`Uint8Array | string`). -/
inductive PubKeyInput
  | bytes (bs : List Nat)
  | str (s : List Char)

/-- `AddressUtils.pubKeyToAddress` from src/address.ts: decodes a textual key
(`0x`-prefixed hex, bare hex, else base64 — Node decoding of hex and base64 is
lenient and never throws, so the surrounding try/catch is dead code), hashes
with sha256 then ripemd160, regroups to 5-bit words and bech32-encodes. -/
def pubKeyToAddress (publicKey : PubKeyInput) (hrp : List Char) :
    Except String (List Char) :=
  let pubKeyBytes :=
    match publicKey with
    | .str s =>
      if s.take 2 = ['0', 'x'] then hexPairsLenient (s.drop 2)
      else if s ≠ [] ∧ s.all isHexDigit then hexPairsLenient s
      else base64Decode s
    | .bytes bs => bs
  match convertBits (ripemd160 (sha256 pubKeyBytes)) 8 5 true with
  | .error e => .error e
  | .ok words => bech32Encode hrp words 256

theorem b64Val_b64Char : ∀ v : Nat, v < 64 → b64Val (b64Char v) = some v := by
  decide

theorem b64Val_eq : b64Val '=' = none := by decide

theorem base64_roundtrip : ∀ (bs : List Nat), (∀ b ∈ bs, b < 256) →
    base64Decode (base64Encode bs) = bs := by
  intro bs
  induction bs using base64Encode.induct with
  | case1 a b c rest ih =>
    intro h
    have ha : a < 256 := h a (by simp)
    have hb : b < 256 := h b (by simp)
    have hc : c < 256 := h c (by simp)
    have hrest : ∀ x ∈ rest, x < 256 := fun x hx => h x (by simp [hx])
    unfold base64Decode at ih ⊢
    show sextetsToBytes (List.filterMap b64Val
      (b64Char (a / 4) :: b64Char ((a % 4) * 16 + b / 16) ::
       b64Char ((b % 16) * 4 + c / 64) :: b64Char (c % 64) :: base64Encode rest)) = _
    rw [List.filterMap_cons, b64Val_b64Char (a / 4) (by omega),
      List.filterMap_cons, b64Val_b64Char ((a % 4) * 16 + b / 16) (by omega),
      List.filterMap_cons, b64Val_b64Char ((b % 16) * 4 + c / 64) (by omega),
      List.filterMap_cons, b64Val_b64Char (c % 64) (by omega)]
    show sextetsToBytes ((a / 4) :: ((a % 4) * 16 + b / 16) ::
      ((b % 16) * 4 + c / 64) :: (c % 64) :: List.filterMap b64Val (base64Encode rest)) = _
    show ((a / 4) * 4 + ((a % 4) * 16 + b / 16) / 16) ::
      ((((a % 4) * 16 + b / 16) % 16) * 16 + ((b % 16) * 4 + c / 64) / 4) ::
      ((((b % 16) * 4 + c / 64) % 4) * 64 + c % 64) ::
      sextetsToBytes (List.filterMap b64Val (base64Encode rest)) = _
    rw [ih hrest]
    congr 1
    · omega
    congr 1
    · omega
    congr 1
    omega
  | case2 a b =>
    intro h
    have ha : a < 256 := h a (by simp)
    have hb : b < 256 := h b (by simp)
    show sextetsToBytes (List.filterMap b64Val
      [b64Char (a / 4), b64Char ((a % 4) * 16 + b / 16), b64Char ((b % 16) * 4), '=']) = _
    rw [List.filterMap_cons, b64Val_b64Char (a / 4) (by omega),
      List.filterMap_cons, b64Val_b64Char ((a % 4) * 16 + b / 16) (by omega),
      List.filterMap_cons, b64Val_b64Char ((b % 16) * 4) (by omega),
      List.filterMap_cons, b64Val_eq, List.filterMap_nil]
    show [(a / 4) * 4 + ((a % 4) * 16 + b / 16) / 16,
      (((a % 4) * 16 + b / 16) % 16) * 16 + ((b % 16) * 4) / 4] = [a, b]
    congr 1
    · omega
    congr 1
    omega
  | case3 a =>
    intro h
    have ha : a < 256 := h a (by simp)
    show sextetsToBytes (List.filterMap b64Val
      [b64Char (a / 4), b64Char ((a % 4) * 16), '=', '=']) = _
    rw [List.filterMap_cons, b64Val_b64Char (a / 4) (by omega),
      List.filterMap_cons, b64Val_b64Char ((a % 4) * 16) (by omega),
      List.filterMap_cons, b64Val_eq, List.filterMap_cons, b64Val_eq, List.filterMap_nil]
    show [(a / 4) * 4 + ((a % 4) * 16) / 16] = [a]
    congr 1
    omega
  | case4 =>
    intro _
    rfl

theorem hexDigitChar_ne_x : ∀ n : Nat, n < 16 → hexDigitChar n ≠ 'x' := by
  decide

theorem bytesToHexChars_take2_ne (bs : List Nat) (hb : ∀ b ∈ bs, b < 256) :
    (bytesToHexChars bs).take 2 ≠ ['0', 'x'] := by
  cases bs with
  | nil => intro h; simp [bytesToHexChars] at h
  | cons b rest =>
    rw [bytesToHexChars_cons]
    intro h
    have : hexDigitChar (b % 16) = 'x' := by
      have h2 := congrArg (fun l => l.getD 1 ' ') h
      simpa using h2
    exact hexDigitChar_ne_x (b % 16) (by
      have := hb b (List.mem_cons_self b rest)
      omega) this

/-- C7 amended: `pubKeyToAddress` yields the same result for the raw bytes,
the bare-hex rendering, and the `0x`-prefixed hex rendering of any key; the
base64 rendering also agrees provided it is not itself mistakable for a hex
input (it does not start with `0x` and is not made of hex characters only). -/
theorem pubKeyToAddress_encoding_agnostic (bs : List Nat) (hrp : List Char)
    (hb : ∀ b ∈ bs, b < 256) :
    pubKeyToAddress (.str (bytesToHexChars bs)) hrp = pubKeyToAddress (.bytes bs) hrp ∧
    pubKeyToAddress (.str ('0' :: 'x' :: bytesToHexChars bs)) hrp =
      pubKeyToAddress (.bytes bs) hrp ∧
    (((base64Encode bs).take 2 ≠ ['0', 'x'] ∧
        ¬ (base64Encode bs ≠ [] ∧ (base64Encode bs).all isHexDigit = true)) →
      pubKeyToAddress (.str (base64Encode bs)) hrp = pubKeyToAddress (.bytes bs) hrp) := by
  refine ⟨?_, ?_, ?_⟩
  · have hdec : (if (bytesToHexChars bs).take 2 = ['0', 'x'] then
        hexPairsLenient ((bytesToHexChars bs).drop 2)
      else if bytesToHexChars bs ≠ [] ∧ (bytesToHexChars bs).all isHexDigit then
        hexPairsLenient (bytesToHexChars bs)
      else base64Decode (bytesToHexChars bs)) = bs := by
      rw [if_neg (bytesToHexChars_take2_ne bs hb)]
      cases bs with
      | nil =>
        rw [if_neg (by
          intro hcon
          exact hcon.1 rfl)]
        rfl
      | cons b rest =>
        rw [if_pos ⟨by rw [bytesToHexChars_cons]; simp, by
          rw [List.all_eq_true]
          intro c hc
          obtain ⟨n, hn, rfl⟩ := bytesToHexChars_mem (b :: rest) hb c hc
          exact hexDigitChar_hex n hn⟩]
        exact hexPairs_bytesToHex (b :: rest) hb
    simp only [pubKeyToAddress]
    rw [hdec]
  · have hdec : (if ('0' :: 'x' :: bytesToHexChars bs).take 2 = ['0', 'x'] then
        hexPairsLenient (('0' :: 'x' :: bytesToHexChars bs).drop 2)
      else if ('0' :: 'x' :: bytesToHexChars bs) ≠ [] ∧
          ('0' :: 'x' :: bytesToHexChars bs).all isHexDigit then
        hexPairsLenient ('0' :: 'x' :: bytesToHexChars bs)
      else base64Decode ('0' :: 'x' :: bytesToHexChars bs)) = bs := by
      rw [if_pos (show ('0' :: 'x' :: bytesToHexChars bs).take 2 = ['0', 'x'] from rfl)]
      exact hexPairs_bytesToHex bs hb
    simp only [pubKeyToAddress]
    rw [hdec]
  · intro ⟨hx, hhex⟩
    have hdec : (if (base64Encode bs).take 2 = ['0', 'x'] then
        hexPairsLenient ((base64Encode bs).drop 2)
      else if base64Encode bs ≠ [] ∧ (base64Encode bs).all isHexDigit then
        hexPairsLenient (base64Encode bs)
      else base64Decode (base64Encode bs)) = bs := by
      rw [if_neg hx, if_neg hhex]
      exact base64_roundtrip bs hb
    simp only [pubKeyToAddress]
    rw [hdec]

deriving instance DecidableEq for Except

set_option maxRecDepth 100000

/-- A 33-byte key (the compressed-key length) whose base64 rendering consists
of hex characters only. -/
def pkClashKey : List Nat := List.flatten (List.replicate 11 [0x69, 0xb7, 0x1d])

def pkClashB64 : List Char := "abcdabcdabcdabcdabcdabcdabcdabcdabcdabcdabcd".toList

/-- C7 counterexample: the base64 rendering of `pkClashKey` is all-hex, so
`pubKeyToAddress` parses it through the hex branch and produces a different
address than the raw bytes produce — the claimed encoding-independence fails
for base64 input. -/
theorem pubKeyToAddress_base64_hex_clash :
    base64Encode pkClashKey = pkClashB64 ∧
    pubKeyToAddress (.str pkClashB64) ['s', 'e', 'i'] ≠
      pubKeyToAddress (.bytes pkClashKey) ['s', 'e', 'i'] := by
  refine ⟨by decide, by decide⟩

/-- C8: on the malformed key `'0xZZ'` (non-hex characters after the `0x`
marker), `pubKeyToAddress` does not raise: Node's lenient hex decoding turns
`ZZ` into the empty byte string, and the function silently returns the
address of the empty key. -/
theorem pubKeyToAddress_silent_on_bad_hex :
    pubKeyToAddress (.str ['0', 'x', 'Z', 'Z']) ['s', 'e', 'i'] =
      pubKeyToAddress (.bytes []) ['s', 'e', 'i'] ∧
    pubKeyToAddress (.str ['0', 'x', 'Z', 'Z']) ['s', 'e', 'i'] =
      .ok "sei1k3e2yekshkyuzdcx5sfjena3da7rh87twaca8d".toList := by
  refine ⟨by decide, by decide⟩

/-! ## src/monitor.ts (current revision)

Event payload types follow the interfaces of monitor.ts; absent optional
arrays (`tx.logs`, `tx.events`) are the empty list, which JavaScript treats
identically to `undefined` in every `.length` truthiness test of the source;
`tx.result` keeps its `Option` so that the three payload shapes stay distinct.
The `raw` passthrough field of `TransactionDetails` (never inspected by any
logic in the source and by no claim) is not modelled. -/

structure Attr where
  key : String
  value : String
deriving DecidableEq

structure TxLogEvent where
  type : String
  attributes : List Attr
deriving DecidableEq

structure TxLog where
  msg_index : Nat
  log : String
  events : List TxLogEvent
deriving DecidableEq

structure TxResult where
  events : List TxLogEvent
deriving DecidableEq

structure TxResponseItem where
  txhash : String
  height : String
  gas_used : String
  gas_wanted : String
  timestamp : String
  logs : List TxLog
  events : List TxLogEvent
  result : Option TxResult
deriving DecidableEq

structure TransactionDetails where
  hash : String
  height : String
  type : String
  amount : String
  sender : Option String
  receiver : String
  gasUsed : String
  gasWanted : String
  timestamp : String
deriving DecidableEq

inductive DepositType
  | direct
  | evm
  | cast
deriving DecidableEq

structure DepositEvent where
  type : DepositType
  transaction : TransactionDetails

/-- `extractSender`: the `sender` attribute of the `message` event, else of the
`transfer` event, else undefined. -/
def extractSender (events : List TxLogEvent) : Option String :=
  match (events.find? (fun e => e.type == "message")).bind
      (fun m => (m.attributes.find? (fun a => a.key == "sender")).map (fun a => a.value)) with
  | some v => some v
  | none =>
    (events.find? (fun e => e.type == "transfer")).bind
      (fun m => (m.attributes.find? (fun a => a.key == "sender")).map (fun a => a.value))

/-- The `for (let i = 0; i < attrs.length; i += 2)` scan over the interleaved
(receiver, amount) attribute pairs of one `coin_received` event: incomplete
trailing pairs and pairs whose keys are not `receiver` then `amount` are
skipped, and each matching pair yields one (receiver, amount) result. -/
def scanAttrs (finalAddress : String) : List Attr → List (String × String)
  | a :: b :: rest =>
    (if a.key = "receiver" ∧ b.key = "amount" then
      (if a.value = finalAddress then [(a.value, b.value)] else [])
    else []) ++ scanAttrs finalAddress rest
  | _ => []

/-- `parseTransactionDetails` from monitor.ts: normalizes the payload shape
(`tx.logs`, else wrapped `tx.events`, else wrapped `tx.result.events`), then
per log group reads the action type from the `message` event and emits one
detail per matching (receiver, amount) pair of each `coin_received` event. -/
def parseTransactionDetails (finalAddress : String) (tx : TxResponseItem) :
    List TransactionDetails :=
  let logs := tx.logs
  let logs :=
    if logs.length = 0 then
      if tx.events.length ≠ 0 then [⟨0, "", tx.events⟩]
      else
        match tx.result with
        | some r => if r.events.length ≠ 0 then [⟨0, "", r.events⟩] else []
        | none => []
    else logs
  logs.flatMap (fun log =>
    let events := log.events
    let actionType :=
      match (events.find? (fun e => e.type == "message")).bind
          (fun m => m.attributes.find? (fun a => a.key == "action")) with
      | some attr => attr.value
      | none => "unknown"
    let coinReceivedEvents := events.filter (fun e => e.type == "coin_received")
    coinReceivedEvents.flatMap (fun cre =>
      (scanAttrs finalAddress cre.attributes).map (fun p =>
        { hash := tx.txhash, height := tx.height, type := actionType, amount := p.2,
          receiver := p.1, sender := extractSender events, gasUsed := tx.gas_used,
          gasWanted := tx.gas_wanted, timestamp := tx.timestamp })))

/-- `determineDepositType` from monitor.ts (current revision): the EVM message
type maps to `evm`, everything else to `direct`; the `cast` arm exists only as
a comment in the source. -/
def determineDepositType (details : TransactionDetails) : DepositType :=
  if details.type = "/seiprotocol.seichain.evm.MsgEVMTransaction" then .evm
  else .direct

/-- A consumer callback; a JavaScript throw is `Except.error`. -/
def DepositCallback : Type := DepositEvent → Except String Unit

def cbOutcome (r : Except String Unit) : Option String :=
  match r with
  | .ok _ => none
  | .error e => some e

/-- `notifyCallbacks`: iterate over the registered callbacks in order, catch
and record each failure, never abort.  The returned list is the invocation
log: entry `j` is the caught error (if any) of callback `j` applied to the
event. -/
def notifyCallbacks : List DepositCallback → DepositEvent → List (Option String)
  | [], _ => []
  | cb :: rest, event => cbOutcome (cb event) :: notifyCallbacks rest event

/-- A JSON-RPC reply body (`JsonRpcResponse` of types.ts), keeping only the
fields the monitor reads. -/
structure RpcResp where
  result : Option (List Char)
  error : Option String
deriving DecidableEq

/-- Outcome of one `fetch` (plus `.json()`): the network threw, or a reply
body arrived. -/
inductive FetchOutcome (α : Type)
  | netFail
  | ok (data : α)
deriving DecidableEq

/-- `ethGetCode` from monitor.ts: any transport failure or RPC error becomes
`null`; `data.result || null` also maps an empty string to `null`. -/
def ethGetCode (resp : FetchOutcome RpcResp) : Option (List Char) :=
  match resp with
  | .netFail => none
  | .ok data =>
    match data.error with
    | some _ => none
    | none =>
      match data.result with
      | some s => if s = [] then none else some s
      | none => none

/-- `ethGetTransactionCount` from monitor.ts: any transport failure or RPC
error falls back to the string `0x0`, as does a missing or empty result. -/
def ethGetTransactionCount (resp : FetchOutcome RpcResp) : List Char :=
  match resp with
  | .netFail => ['0', 'x', '0']
  | .ok data =>
    match data.error with
    | some _ => ['0', 'x', '0']
    | none =>
      match data.result with
      | some s => if s = [] then ['0', 'x', '0'] else s
      | none => ['0', 'x', '0']

/-- Reply of the wallets registry service (`resp.ok` plus the parsed body). -/
structure WalletsResp where
  respOk : Bool
  result : Option (List Char)
deriving DecidableEq

/-- `lookupChainWallet` from monitor.ts: transport failure, a non-ok HTTP
status, and a missing or empty `result` all become `null`. -/
def lookupChainWallet (resp : FetchOutcome WalletsResp) : Option (List Char) :=
  match resp with
  | .netFail => none
  | .ok data =>
    if ¬ data.respOk then none
    else
      match data.result with
      | some s => if s = [] then none else some s
      | none => none

/-- JavaScript `parseInt(s, 16)`: skip an optional `0x`/`0X` marker, then read
leading hex digits; no digits means `NaN`. -/
def parseIntHex (s : List Char) : Option Nat :=
  let s1 := if s.take 2 = ['0', 'x'] ∨ s.take 2 = ['0', 'X'] then s.drop 2 else s
  let digits := s1.takeWhile isHexDigit
  if digits = [] then none
  else some (digits.foldl (fun a c => a * 16 + (hexDigitVal c).getD 0) 0)

/-- `parseInt(txCountHex, 16) || 0`: `NaN` (and `0` itself) become `0`. -/
def jsParseIntHexOr0 (s : List Char) : Nat := (parseIntHex s).getD 0

/-- The three remote lookups one `resolveEvmAddress` call performs. -/
structure ResolveOracle where
  codeResp : FetchOutcome RpcResp
  txCountResp : FetchOutcome RpcResp
  walletResp : FetchOutcome WalletsResp

/-- `resolveEvmAddress` from monitor.ts: non-empty contract code casts the hex
identifier; otherwise a known registry wallet wins; otherwise both a fresh
account (zero transaction count) and the inconsistent leftover case fall back
to the same cast derivation. -/
def resolveEvmAddress (o : ResolveOracle) (hexAddr : List Char) (hrp : List Char) :
    Except String (List Char) :=
  let code := ethGetCode o.codeResp
  if (match code with
      | some s => s ≠ ['0', 'x']
      | none => false : Bool) then
    ethAddressToBech32 hexAddr hrp
  else
    let txCountHex := ethGetTransactionCount o.txCountResp
    let txCount := jsParseIntHexOr0 txCountHex
    match lookupChainWallet o.walletResp with
    | some w => .ok w
    | none =>
      if txCount = 0 then ethAddressToBech32 hexAddr hrp
      else ethAddressToBech32 hexAddr hrp

/-- What one tick of the REST poll loop observes: the head-height lookup threw,
or it returned height `h` and the rest of the tick (`getTransactions` and
processing) either succeeded or threw. -/
inductive PollTick
  | heightFail
  | tick (h : Nat) (ok : Bool)
deriving DecidableEq

/-- One iteration of the `poll` closure of `startRestPolling`, acting on the
`lastCheckedBlock` cursor.  Result: the new cursor value, and the height range
passed to `getTransactions` when the fetch was attempted.  The cursor advances
to `h` only when the whole tick body ran without throwing; a thrown tick is
caught and leaves the cursor unchanged. -/
def pollStep (last : Nat) : PollTick → Nat × Option (Nat × Nat)
  | .heightFail => (last, none)
  | .tick h ok =>
    if last < h then (if ok then h else last, some (last + 1, h))
    else (last, none)

/-- A run of successive poll ticks (the fixed-delay loop schedules the next
tick only after the current one finished, so ticks are sequential): final
cursor and the log of every range passed to `getTransactions`. -/
def pollRun (last : Nat) : List PollTick → Nat × List (Nat × Nat)
  | [] => (last, [])
  | t :: ts =>
    let r := pollStep last t
    let rest := pollRun r.1 ts
    (rest.1, (match r.2 with | some rg => [rg] | none => []) ++ rest.2)

/-- C5: a parsed candidate whose action type is the chain's EVM message type
classifies as `evm`, whatever its receiver is — the current classifier never
reaches a `cast` verdict (that arm is only a comment in the source). -/
theorem determineDepositType_evm (details : TransactionDetails)
    (h : details.type = "/seiprotocol.seichain.evm.MsgEVMTransaction") :
    determineDepositType details = .evm := by
  unfold determineDepositType
  rw [if_pos h]

theorem notifyCallbacks_eq_map (cbs : List DepositCallback) (e : DepositEvent) :
    notifyCallbacks cbs e = cbs.map (fun cb => cbOutcome (cb e)) := by
  induction cbs with
  | nil => rfl
  | cons cb rest ih => simp [notifyCallbacks, ih]

/-- C9: dispatching a sequence of deposit events invokes every registered
callback on every event in registration order — the invocation log of each
event has one entry per callback, computed from that callback alone, so a
callback that throws neither stops the dispatch of that event to its
siblings, nor is removed, nor misses any later event. -/
theorem notifyCallbacks_isolation (cbs : List DepositCallback)
    (events : List DepositEvent) :
    events.map (notifyCallbacks cbs) =
      events.map (fun e => cbs.map (fun cb => cbOutcome (cb e))) := by
  induction events with
  | nil => rfl
  | cons e rest ih => simp only [List.map_cons, ih, notifyCallbacks_eq_map]

theorem pollStep_mono (last : Nat) (t : PollTick) : last ≤ (pollStep last t).1 := by
  cases t with
  | heightFail => exact Nat.le_refl last
  | tick h ok =>
    simp only [pollStep]
    by_cases hlt : last < h
    · rw [if_pos hlt]
      cases ok
      · simp
      · simp
        omega
    · rw [if_neg hlt]

theorem pollRun_mono (ts : List PollTick) : ∀ last, last ≤ (pollRun last ts).1 := by
  induction ts with
  | nil => intro last; exact Nat.le_refl last
  | cons t rest ih =>
    intro last
    calc last ≤ (pollStep last t).1 := pollStep_mono last t
      _ ≤ (pollRun (pollStep last t).1 rest).1 := ih _

theorem pollRun_ranges_above (ts : List PollTick) :
    ∀ last, ∀ r ∈ (pollRun last ts).2, last < r.1 := by
  induction ts with
  | nil => intro last r hr; simp [pollRun] at hr
  | cons t rest ih =>
    intro last r hr
    show last < r.1
    simp only [pollRun] at hr
    rcases List.mem_append.mp hr with hfst | hrest
    · cases t with
      | heightFail => simp [pollStep] at hfst
      | tick h2 ok =>
        simp only [pollStep] at hfst
        by_cases hlt : last < h2
        · rw [if_pos hlt] at hfst
          have hre : r = (last + 1, h2) := by simpa using hfst
          rw [hre]
          simp
        · rw [if_neg hlt] at hfst
          simp at hfst
    · have := ih (pollStep last t).1 r hrest
      have hm := pollStep_mono last t
      omega

/-- C2: the `lastCheckedBlock` cursor of the REST poll loop never decreases
over any sequence of tick outcomes; a tick that observes `h` above the cursor
fetches exactly the range from `cursor + 1` to `h` and, when it completes,
advances the cursor to `h`; and every range any later tick passes to
`getTransactions` starts strictly above `h`, so a range covered by a completed
tick is never fetched again (ticks are sequential because the next one is
scheduled only after the current one finishes). -/
theorem restPolling_no_refetch (init : Nat) (ts1 : List PollTick) (h : Nat)
    (ts2 : List PollTick) (hadv : (pollRun init ts1).1 < h) :
    init ≤ (pollRun init ts1).1 ∧
    pollStep (pollRun init ts1).1 (.tick h true) =
      (h, some ((pollRun init ts1).1 + 1, h)) ∧
    ∀ r ∈ (pollRun h ts2).2, h < r.1 := by
  refine ⟨pollRun_mono ts1 init, ?_, fun r hr => pollRun_ranges_above ts2 h r hr⟩
  simp only [pollStep]
  rw [if_pos hadv]
  simp

theorem scanAttrs_flatten (fa : String) :
    ∀ (ps : List (Attr × Attr)),
      scanAttrs fa (ps.flatMap (fun p => [p.1, p.2])) =
        ps.flatMap (fun p =>
          if p.1.key = "receiver" ∧ p.2.key = "amount" then
            (if p.1.value = fa then [(p.1.value, p.2.value)] else [])
          else []) := by
  intro ps
  induction ps with
  | nil => rfl
  | cons p rest ih =>
    show scanAttrs fa (p.1 :: p.2 :: rest.flatMap (fun p => [p.1, p.2])) = _
    show (if p.1.key = "receiver" ∧ p.2.key = "amount" then
        (if p.1.value = fa then [(p.1.value, p.2.value)] else [])
      else []) ++ scanAttrs fa (rest.flatMap (fun p => [p.1, p.2])) = _
    rw [ih]
    rfl

theorem flatMap_all_nil {α β : Type} :
    ∀ (l : List α) (f : α → List β),
      (∀ (j : Nat) (hj : j < l.length), f (l.get ⟨j, hj⟩) = []) → l.flatMap f = [] := by
  intro l
  induction l with
  | nil => intro f _; rfl
  | cons a t ih =>
    intro f h
    have h0 : f a = [] := h 0 (by simp)
    show f a ++ t.flatMap f = []
    rw [h0, List.nil_append]
    exact ih f (fun j hj => h (j + 1) (by simpa using Nat.succ_lt_succ hj))

theorem flatMap_single {α β : Type} :
    ∀ (l : List α) (f : α → List β) (k : Nat) (hk : k < l.length) (b : β),
      f (l.get ⟨k, hk⟩) = [b] →
      (∀ (j : Nat) (hj : j < l.length), j ≠ k → f (l.get ⟨j, hj⟩) = []) →
      l.flatMap f = [b] := by
  intro l
  induction l with
  | nil => intro f k hk; simp at hk
  | cons a t ih =>
    intro f k hk b hb hothers
    show f a ++ t.flatMap f = [b]
    cases k with
    | zero =>
      have ha : f a = [b] := hb
      rw [ha]
      have : t.flatMap f = [] := by
        apply flatMap_all_nil
        intro j hj
        exact hothers (j + 1) (by simpa using Nat.succ_lt_succ hj) (by omega)
      rw [this]
      rfl
    | succ k' =>
      have ha : f a = [] := hothers 0 (by simp) (by omega)
      rw [ha, List.nil_append]
      exact ih f k' (by simpa using Nat.lt_of_succ_lt_succ hk) b hb
        (fun j hj hne => hothers (j + 1) (by simpa using Nat.succ_lt_succ hj) (by omega))

/-- C3: for a `coin_received` event whose attributes interleave (receiver,
amount) pairs and in which the watched address is the receiver of exactly the
pair at index `k` (`k > 0`), `parseTransactionDetails` emits exactly one
candidate, carrying the amount of pair `k`; any pair whose keys are not
`receiver` then `amount`, and any pair with a different receiver, is skipped
without stopping the scan. -/
theorem parseTransactionDetails_single_pair
    (finalAddress txhash height gas_used gas_wanted timestamp : String)
    (ps : List (Attr × Attr)) (k : Nat) (hk : k < ps.length) (hk0 : 0 < k)
    (hgood : (ps.get ⟨k, hk⟩).1.key = "receiver" ∧ (ps.get ⟨k, hk⟩).2.key = "amount" ∧
      (ps.get ⟨k, hk⟩).1.value = finalAddress)
    (hothers : ∀ (j : Nat) (hj : j < ps.length), j ≠ k →
      ¬ ((ps.get ⟨j, hj⟩).1.key = "receiver" ∧ (ps.get ⟨j, hj⟩).2.key = "amount" ∧
        (ps.get ⟨j, hj⟩).1.value = finalAddress)) :
    parseTransactionDetails finalAddress
      { txhash := txhash, height := height, gas_used := gas_used,
        gas_wanted := gas_wanted, timestamp := timestamp,
        logs := [⟨0, "", [⟨"coin_received", ps.flatMap (fun p => [p.1, p.2])⟩]⟩],
        events := [], result := none } =
      [{ hash := txhash, height := height, type := "unknown",
         amount := (ps.get ⟨k, hk⟩).2.value, receiver := finalAddress, sender := none,
         gasUsed := gas_used, gasWanted := gas_wanted, timestamp := timestamp }] := by
  have hscan : scanAttrs finalAddress (ps.flatMap (fun p => [p.1, p.2])) =
      [(finalAddress, (ps.get ⟨k, hk⟩).2.value)] := by
    rw [scanAttrs_flatten]
    apply flatMap_single ps _ k hk
    · rw [if_pos ⟨hgood.1, hgood.2.1⟩, if_pos hgood.2.2, hgood.2.2]
    · intro j hj hne
      by_cases hkeys : (ps.get ⟨j, hj⟩).1.key = "receiver" ∧ (ps.get ⟨j, hj⟩).2.key = "amount"
      · rw [if_pos hkeys]
        rw [if_neg (fun hv => hothers j hj hne ⟨hkeys.1, hkeys.2, hv⟩)]
      · rw [if_neg hkeys]
  have hstep : parseTransactionDetails finalAddress
      { txhash := txhash, height := height, gas_used := gas_used,
        gas_wanted := gas_wanted, timestamp := timestamp,
        logs := [⟨0, "", [⟨"coin_received", ps.flatMap (fun p => [p.1, p.2])⟩]⟩],
        events := [], result := none } =
      ((scanAttrs finalAddress (ps.flatMap (fun p => [p.1, p.2]))).map (fun p =>
        ({ hash := txhash, height := height, type := "unknown", amount := p.2, receiver := p.1, sender := none, gasUsed := gas_used, gasWanted := gas_wanted, timestamp := timestamp } : TransactionDetails)) ++ []) ++ [] := rfl
  rw [List.append_nil, List.append_nil] at hstep
  rw [hstep, hscan]
  rfl

/-- A payload whose flat top-level event list and whose `result.events` list
both carry a matching `coin_received` pair, with different amounts. -/
def c4tx : TxResponseItem :=
  { txhash := "T", height := "1", gas_used := "g", gas_wanted := "w",
    timestamp := "ts", logs := [],
    events := [⟨"coin_received", [⟨"receiver", "sei1watch"⟩, ⟨"amount", "7usei"⟩]⟩],
    result := some ⟨[⟨"coin_received", [⟨"receiver", "sei1watch"⟩, ⟨"amount", "5usei"⟩]⟩]⟩ }

/-- C4 counterexample: with empty `logs`, a non-empty flat top-level event
list `tx.events` wins over a non-empty `tx.result.events` — the parse of
`c4tx` carries the top-level amount `7usei`, and only clearing `tx.events`
lets `result.events` (amount `5usei`) through.  The spec's order — logs, then
live-channel `result.events`, then flat `events` — would have produced
`5usei` for `c4tx`. -/
theorem parse_source_order_counterexample :
    (parseTransactionDetails "sei1watch" c4tx).map (fun d => d.amount) = ["7usei"] ∧
    (parseTransactionDetails "sei1watch" { c4tx with events := [] }).map
      (fun d => d.amount) = ["5usei"] := by
  refine ⟨by decide, by decide⟩

/-- C4 (amended): `parseTransactionDetails` prefers the first non-empty
source in the order `tx.logs`, then the flat top-level `tx.events`, then
`tx.result.events` — when `tx.logs` is non-empty both other sources are
ignored, and when `tx.logs` is empty but `tx.events` is non-empty,
`tx.result` is ignored. -/
theorem parse_source_order_amended (fa : String) (tx : TxResponseItem) :
    (tx.logs ≠ [] → ∀ (evs : List TxLogEvent) (res : Option TxResult),
      parseTransactionDetails fa { tx with events := evs, result := res } =
        parseTransactionDetails fa { tx with events := [], result := none }) ∧
    (tx.logs = [] → tx.events ≠ [] → ∀ (res : Option TxResult),
      parseTransactionDetails fa { tx with result := res } =
        parseTransactionDetails fa { tx with result := none }) := by
  obtain ⟨th, hh, gu, gw, ts, logs, evs0, res0⟩ := tx
  constructor
  · intro hlogs evs res
    simp only [parseTransactionDetails]
    rw [if_neg (by simpa using hlogs), if_neg (by simpa using hlogs)]
  · intro hlogs hevs res
    simp only at hlogs hevs
    subst hlogs
    simp only [parseTransactionDetails]
    have h0 : (([] : List TxLog)).length = 0 := rfl
    have he : evs0.length ≠ 0 := by simpa using hevs
    rw [if_pos h0, if_pos he, if_pos h0, if_pos he]

/-- C4 amended witness: both preference steps at concrete payloads — a
non-empty `logs` suppresses concrete `events`/`result`, and with empty `logs`
a non-empty `events` suppresses a concrete `result`. -/
theorem parse_source_order_amended_witness :
    (parseTransactionDetails "sei1watch"
        { c4tx with logs := [⟨0, "", []⟩], events := c4tx.events, result := c4tx.result } =
      parseTransactionDetails "sei1watch"
        { c4tx with logs := [⟨0, "", []⟩], events := [], result := none }) ∧
    (parseTransactionDetails "sei1watch" { c4tx with result := c4tx.result } =
      parseTransactionDetails "sei1watch" { c4tx with result := none }) :=
  ⟨(parse_source_order_amended "sei1watch" { c4tx with logs := [⟨0, "", []⟩] }).1
      (by decide) c4tx.events c4tx.result,
    (parse_source_order_amended "sei1watch" c4tx).2 (by decide) (by decide) c4tx.result⟩

/-- C1: for a hex identifier accepted by `isEthAddress`, when the code lookup
yields no contract code (a failed call or the empty `0x` answer), the wallet
registry finds nothing and the transaction count parses to zero,
`resolveEvmAddress` returns exactly the cast derivation
`ethAddressToBech32 hexAddr hrp`; and under every oracle — any combination of
network failures included — it resolves to some address rather than
throwing. -/
theorem resolveEvmAddress_casts_fresh_eoa (o : ResolveOracle) (hexAddr hrp : List Char)
    (hhex : isEthAddress hexAddr = true)
    (hcode : ethGetCode o.codeResp = none ∨ ethGetCode o.codeResp = some ['0', 'x'])
    (hwallet : lookupChainWallet o.walletResp = none)
    (hcount : jsParseIntHexOr0 (ethGetTransactionCount o.txCountResp) = 0)
    (hne : hrp ≠ [])
    (hchars : ∀ c ∈ hrp, 33 ≤ c.toNat ∧ c.toNat ≤ 126 ∧ jsToLower c = c)
    (hlen : hrp.length ≤ 51) :
    resolveEvmAddress o hexAddr hrp = ethAddressToBech32 hexAddr hrp ∧
    ∀ o2 : ResolveOracle, ∃ a, resolveEvmAddress o2 hexAddr hrp = .ok a := by
  have hok := ethAddressToBech32_ok hexAddr hrp hhex hne hchars hlen
  constructor
  · simp only [resolveEvmAddress]
    rcases hcode with h | h
    · rw [h, hwallet]
      simp [hcount]
    · rw [h, hwallet]
      simp [hcount]
  · intro o2
    obtain ⟨s, hs⟩ := hok
    simp only [resolveEvmAddress]
    split
    · exact ⟨s, hs⟩
    · split
      · next w hw => exact ⟨w, rfl⟩
      · split
        · exact ⟨s, hs⟩
        · exact ⟨s, hs⟩

/-- C1 witness: the spec's own scenario — identifier `0x1111…` (40 ones), all
three lookups failing over the network (treated as empty code / not found /
zero count) resolve to the cast derivation, and every oracle yields some
address. -/
theorem resolveEvmAddress_casts_fresh_eoa_witness :
    resolveEvmAddress ⟨.netFail, .netFail, .netFail⟩
        "0x1111111111111111111111111111111111111111".toList ['s', 'e', 'i'] =
      ethAddressToBech32 "0x1111111111111111111111111111111111111111".toList
        ['s', 'e', 'i'] ∧
    ∀ o2 : ResolveOracle, ∃ a, resolveEvmAddress o2
        "0x1111111111111111111111111111111111111111".toList ['s', 'e', 'i'] = .ok a :=
  resolveEvmAddress_casts_fresh_eoa ⟨.netFail, .netFail, .netFail⟩
    "0x1111111111111111111111111111111111111111".toList ['s', 'e', 'i']
    (by decide) (Or.inl (by decide)) (by decide) (by decide)
    (by decide) (by decide) (by decide)

/-- C2 witness: from cursor 5 a tick observing height 7 fetches range 6–7 and
advances to 7; the next tick observes 9, fetches 8–9, advances to 9; and a
later run (a failing tick, a completing tick at 12, a failed height lookup)
only ever fetches ranges starting above 9. -/
theorem restPolling_no_refetch_witness :
    5 ≤ (pollRun 5 [.tick 7 true]).1 ∧
    pollStep (pollRun 5 [.tick 7 true]).1 (.tick 9 true) =
      (9, some ((pollRun 5 [.tick 7 true]).1 + 1, 9)) ∧
    ∀ r ∈ (pollRun 9 [.tick 12 false, .tick 12 true, .heightFail]).2, 9 < r.1 :=
  restPolling_no_refetch 5 [.tick 7 true] 9
    [.tick 12 false, .tick 12 true, .heightFail] (by decide)

/-- C3 witness: an attribute list of two interleaved pairs — a non-matching
`(spender, amount)` pair at index 0 and the watched pair at index 1 — yields
exactly the one candidate of pair 1, with its amount. -/
theorem parseTransactionDetails_single_pair_witness :
    parseTransactionDetails "sei1watch"
      { txhash := "T", height := "1", gas_used := "g", gas_wanted := "w",
        timestamp := "ts",
        logs := [⟨0, "", [⟨"coin_received",
          [⟨"spender", "x"⟩, ⟨"amount", "1usei"⟩,
           ⟨"receiver", "sei1watch"⟩, ⟨"amount", "9usei"⟩]⟩]⟩],
        events := [], result := none } =
      [{ hash := "T", height := "1", type := "unknown", amount := "9usei",
         receiver := "sei1watch", sender := none, gasUsed := "g",
         gasWanted := "w", timestamp := "ts" }] :=
  parseTransactionDetails_single_pair "sei1watch" "T" "1" "g" "w" "ts"
    [(⟨"spender", "x"⟩, ⟨"amount", "1usei"⟩),
     (⟨"receiver", "sei1watch"⟩, ⟨"amount", "9usei"⟩)]
    1 (by decide) (by decide) (by decide) (by decide)

/-- C5 witness: a candidate with the EVM action type classifies as `evm` even
with a bech32 cast-shaped receiver. -/
theorem determineDepositType_evm_witness :
    determineDepositType
      { hash := "T", height := "1",
        type := "/seiprotocol.seichain.evm.MsgEVMTransaction", amount := "5usei",
        sender := none, receiver := "sei1k3e2yekshkyuzdcx5sfjena3da7rh87twaca8d",
        gasUsed := "g", gasWanted := "w", timestamp := "ts" } = .evm :=
  determineDepositType_evm
    { hash := "T", height := "1",
      type := "/seiprotocol.seichain.evm.MsgEVMTransaction", amount := "5usei",
      sender := none, receiver := "sei1k3e2yekshkyuzdcx5sfjena3da7rh87twaca8d",
      gasUsed := "g", gasWanted := "w", timestamp := "ts" } rfl

/-- C6 witness: the 20-byte identifier of all-17 bytes derives, decodes back to
the prefix `sei`, and regroups to the original bytes. -/
theorem eth_derive_decode_roundtrip_witness :
    ∃ s ws, ethAddressToBech32
        ('0' :: 'x' :: bytesToHexChars (List.replicate 20 17)) ['s', 'e', 'i'] = .ok s ∧
      bech32Decode s 90 = .ok (['s', 'e', 'i'], ws) ∧
      convertBits ws 5 8 false = .ok (List.replicate 20 17) :=
  eth_derive_decode_roundtrip (List.replicate 20 17) ['s', 'e', 'i']
    (by decide) (by decide) (by decide) (by decide) (by decide)

/-- C7 witness: the one-byte key `[1]` agrees across its bare-hex, prefixed-hex
and base64 (here `AQ==`, not hex-shaped) renderings. -/
theorem pubKeyToAddress_encoding_agnostic_witness :
    pubKeyToAddress (.str (bytesToHexChars [1])) ['s', 'e', 'i'] =
      pubKeyToAddress (.bytes [1]) ['s', 'e', 'i'] ∧
    pubKeyToAddress (.str ('0' :: 'x' :: bytesToHexChars [1])) ['s', 'e', 'i'] =
      pubKeyToAddress (.bytes [1]) ['s', 'e', 'i'] ∧
    (((base64Encode [1]).take 2 ≠ ['0', 'x'] ∧
        ¬ (base64Encode [1] ≠ [] ∧ (base64Encode [1]).all isHexDigit = true)) →
      pubKeyToAddress (.str (base64Encode [1])) ['s', 'e', 'i'] =
        pubKeyToAddress (.bytes [1]) ['s', 'e', 'i']) :=
  pubKeyToAddress_encoding_agnostic [1] ['s', 'e', 'i'] (by decide)
